import Mathlib

/-!
# Verification of the jinaga.js core against its specification

This file gives a shallow embedding, in Lean 4, of the parts of the
jinaga.js repository that the frozen claims C1..C10 talk about:

* `src/interface.ts` — `computeHash`, the legacy descriptive query string
  printer/parser (`Query.toDescriptiveString`, `fromDescriptiveString`);
* `src/indexeddb/indexeddb-store.ts` — `getPredecessors`,
  `findAllAncestors`, `saveFact`, `IndexedDBStore.save`,
  `IndexedDBStore.load`;
* the authorization module (`AuthorizationRules`, `Evidence`, the rule
  classes) from the unnamed source part;
* `src/observer/subscriber.ts` — the feed event handler of `Subscriber`;
* `src/http/fetch.ts` — `FetchConnection.post`.

Conventions of the embedding:

* JavaScript numbers that the code only ever produces by integer
  operations are modelled as `Int`; the JavaScript `<<` operator, which
  coerces to a 32-bit signed integer, is modelled by explicit reduction
  modulo `2 ^ 32`.
* Exceptions are modelled by `Except String` (or `Option` where the
  message is irrelevant); a thrown `Error` is `Except.error` of the
  message the source builds.
* Promise-returning code is sequentialized: `async` functions become pure
  state-passing functions.  The stores of a single IndexedDB transaction
  are modelled as association lists inside an explicit state record, and
  the envelopes of one `save` batch are processed in order.
-/

/-! ## JavaScript integer primitives -/

/-- JavaScript `ToInt32`: reduce an integer to the range `[-2^31, 2^31)`. -/
def toInt32 (x : Int) : Int :=
  (x + 2 ^ 31) % 2 ^ 32 - 2 ^ 31

/-- JavaScript `x << 5`: coerce to int32, shift, and wrap to int32. -/
def jsShl5 (x : Int) : Int :=
  toInt32 (toInt32 x * 32)

/-! ## `computeHash` (src/interface.ts, lines 156–204)

A fact is a JavaScript object: a list of (property name, value) pairs in
enumeration order.  Values are strings, numbers, booleans, dates, or
nested objects.  Numbers (and dates, via `getTime()`) are modelled as
integers. -/

/-- A JavaScript value as `computeMemberHash` discriminates them. -/
inductive JsValue where
  | str (s : String)
  | num (n : Int)
  | jsBool (b : Bool)
  | date (ms : Int)
  | obj (fields : List (String × JsValue))
deriving Repr

/-- `computeStringHash` (src/interface.ts line 195): `hash = (hash << 5) - hash + charCode`,
folded over the code units of the string.  (The `if (!str) return 0`
branch agrees with the fold on the empty string.) -/
def computeStringHash (s : String) : Int :=
  s.data.foldl (fun h c => jsShl5 h - h + (c.toNat : Int)) 0

mutual

/-- Sum of member hashes: `_.sum(_.map(_.pairs(fact), computeMemberHash))`. -/
def sumMemberHashes : List (String × JsValue) → Int
  | [] => 0
  | p :: ps => computeMemberHash p + sumMemberHashes ps

/-- `computeMemberHash` (src/interface.ts line 164):
`(nameHash << 5) - nameHash + valueHash`. -/
def computeMemberHash (p : String × JsValue) : Int :=
  jsShl5 (computeStringHash p.1) - computeStringHash p.1 + computeValueHash p.2

/-- The `switch (typeof(value))` of `computeMemberHash`. -/
def computeValueHash : JsValue → Int
  | .str s => computeStringHash s
  | .num n => n
  | .jsBool b => if b then 1 else 0
  | .date ms => ms
  | .obj fields => sumMemberHashes fields

end

/-- `computeHash` (src/interface.ts line 156).  A null or absent fact is
`none`; `if (!fact) return 0`. -/
def computeHash : Option (List (String × JsValue)) → Int
  | none => 0
  | some fields => sumMemberHashes fields

theorem sumMemberHashes_eq_sum (fields : List (String × JsValue)) :
    sumMemberHashes fields = (fields.map computeMemberHash).sum := by
  induction fields with
  | nil => rfl
  | cons p ps ih => simp [sumMemberHashes, ih]

/-! ## `FetchConnection.post` (src/http/fetch.ts, lines 392–431) -/

/-- The response record the `httpPost` helper resolves with. -/
structure FetchHttpResponse where
  statusCode : Int
  statusMessage : String
  responseType : String
  response : String
deriving DecidableEq, Repr

/-- Outcome of `post`: a thrown `Error`, a `{result: "retry"}` value, or a
`{result: "success"}` value carrying the response body (the `201` branch
carries the literal empty object; JSON parsing of a `200` body is
modelled as the identity on the body text). -/
inductive HttpPostResult where
  | thrown (msg : String)
  | retry (error : String)
  | success (response : String)
deriving DecidableEq, Repr

/-- The status codes that trigger reauthentication (line 396). -/
def needsReauth (code : Int) : Bool :=
  code = 401 ∨ code = 407 ∨ code = 419

/-- The dispatch on the final response (lines 403–429). -/
def postDispatch (r : FetchHttpResponse) : HttpPostResult :=
  if r.statusCode = 403 then
    .thrown r.statusMessage
  else if r.statusCode ≥ 400 then
    .retry (if r.statusMessage = "" then "Unknown error" else r.statusMessage)
  else if r.statusCode = 201 then
    .success "\x7b\x7d"
  else if r.statusCode = 200 then
    .success r.response
  else
    .thrown ("Unexpected status code " ++ toString r.statusCode ++ ": " ++ r.statusMessage)

/-- `post` (lines 392–431).  `resp1` is the response of the first
`httpPost`; when it demands reauthentication and `reauthOk` holds,
the request is retried once and yields `resp2`.  Besides the outcome,
the model counts the reauthentication attempts and the retries. -/
def fetchPost (resp1 resp2 : FetchHttpResponse) (reauthOk : Bool) :
    HttpPostResult × Nat × Nat :=
  if needsReauth resp1.statusCode then
    if reauthOk then (postDispatch resp2, 1, 1)
    else (postDispatch resp1, 1, 0)
  else (postDispatch resp1, 0, 0)


/-- C9: `computeHash` is invariant under the enumeration order of an
object's properties: two objects with the same set of (property name,
value) pairs — property names duplicate-free, as in a JavaScript object —
hash to the same number, and `computeHash` of a null or absent fact is 0. -/
theorem computeHash_order_invariant (f1 f2 : List (String × JsValue))
    (h1 : (f1.map Prod.fst).Nodup) (h2 : (f2.map Prod.fst).Nodup)
    (hmem : ∀ p, p ∈ f1 ↔ p ∈ f2) :
    computeHash (some f1) = computeHash (some f2) ∧ computeHash none = 0 := by
  refine ⟨?_, rfl⟩
  have hperm : f1.Perm f2 := (List.perm_ext_iff_of_nodup h1.of_map h2.of_map).mpr hmem
  simp only [computeHash, sumMemberHashes_eq_sum]
  exact (hperm.map computeMemberHash).sum_eq

/-- Witness for C9 at a concrete pair of two-property objects. -/
theorem computeHash_order_invariant_witness :
    computeHash (some [("a", JsValue.num 1), ("b", JsValue.str "x")]) =
      computeHash (some [("b", JsValue.str "x"), ("a", JsValue.num 1)]) ∧
    computeHash none = 0 :=
  computeHash_order_invariant _ _ (by simp) (by simp)
    (fun p => by simp only [List.mem_cons, List.not_mem_nil, or_false]; exact or_comm)

/-- C8 counterexample: a `204 No Content` response — a 2xx status other
than 200 — makes `post` throw `Unexpected status code`, not return a
success result with an empty body. -/
theorem fetchPost_204_throws :
    fetchPost ⟨204, "No Content", "", ""⟩ ⟨204, "No Content", "", ""⟩ true
      = (.thrown "Unexpected status code 204: No Content", 0, 0) ∧
    (fetchPost ⟨204, "No Content", "", ""⟩ ⟨204, "No Content", "", ""⟩ true).1 ≠
      HttpPostResult.success "\x7b\x7d" := by
  constructor <;> decide

/-- C8 amended: 201 yields success with the empty object; a 2xx status
other than 200 and 201 throws `Unexpected status code` (rather than being
treated as success); 403 throws; 401/407/419 cause exactly one
reauthentication attempt and at most one retry; any other status ≥ 400
yields a retryable result. -/
theorem fetchPost_status_handling (r1 r2 : FetchHttpResponse) (reauthOk : Bool) :
    (needsReauth r1.statusCode = false →
      fetchPost r1 r2 reauthOk = (postDispatch r1, 0, 0)) ∧
    (needsReauth r1.statusCode = true →
      (fetchPost r1 r2 reauthOk).2.1 = 1 ∧ (fetchPost r1 r2 reauthOk).2.2 ≤ 1 ∧
      (fetchPost r1 r2 reauthOk).1 = postDispatch (if reauthOk then r2 else r1)) ∧
    (r1.statusCode = 201 → postDispatch r1 = .success "\x7b\x7d") ∧
    (200 ≤ r1.statusCode → r1.statusCode < 300 →
      r1.statusCode ≠ 200 → r1.statusCode ≠ 201 →
      postDispatch r1 =
        .thrown ("Unexpected status code " ++ toString r1.statusCode ++ ": " ++ r1.statusMessage)) ∧
    (r1.statusCode = 403 → postDispatch r1 = .thrown r1.statusMessage) ∧
    (400 ≤ r1.statusCode → r1.statusCode ≠ 403 →
      postDispatch r1 =
        .retry (if r1.statusMessage = "" then "Unknown error" else r1.statusMessage)) := by
  refine ⟨?_, ?_, ?_, ?_, ?_, ?_⟩
  · intro h; simp [fetchPost, h]
  · intro h; cases reauthOk <;> simp [fetchPost, h]
  · intro h
    have h403 : r1.statusCode ≠ 403 := by omega
    have h400 : ¬ r1.statusCode ≥ 400 := by omega
    simp [postDispatch, h, h403, h400]
  · intro hge hlt h200 h201
    have h403 : r1.statusCode ≠ 403 := by omega
    have h400 : ¬ r1.statusCode ≥ 400 := by omega
    simp [postDispatch, h403, h400, h200, h201]
  · intro h
    simp [postDispatch, h]
  · intro hge h403
    have h400 : r1.statusCode ≥ 400 := hge
    simp [postDispatch, h403, h400]

/-- Witness for C8 at concrete responses: a plain 500 is retryable and a
401 triggers exactly one reauthentication attempt. -/
theorem fetchPost_status_handling_witness :
    fetchPost ⟨500, "err", "", ""⟩ ⟨200, "OK", "", "b"⟩ false = (.retry "err", 0, 0) ∧
    (fetchPost ⟨401, "unauth", "", ""⟩ ⟨200, "OK", "", "b"⟩ true).2.1 = 1 := by
  constructor
  · rw [(fetchPost_status_handling ⟨500, "err", "", ""⟩ ⟨200, "OK", "", "b"⟩ false).1 (by decide)]
    decide
  · exact ((fetchPost_status_handling ⟨401, "unauth", "", ""⟩ ⟨200, "OK", "", "b"⟩ true).2.1
      (by decide)).1

/-! ## Fact model (src/storage.ts shapes used by the claims) -/

/-- A fact reference: `(type, hash)`. -/
structure FactReference where
  type : String
  hash : String
deriving DecidableEq, Repr

/-- A role's predecessor value: a single reference or an array of
references (`getPredecessors` accepts both shapes). -/
inductive PredecessorValue where
  | single (r : FactReference)
  | multiple (rs : List FactReference)
deriving DecidableEq, Repr

/-- A fact record: type, hash, fields and the role-keyed predecessor map
(an association list in object-key insertion order).  Field values are
opaque scalars here. -/
structure FactRecord where
  type : String
  hash : String
  fields : List (String × String)
  predecessors : List (String × PredecessorValue)
deriving DecidableEq, Repr

/-- The reference of a record. -/
def FactRecord.ref (f : FactRecord) : FactReference :=
  ⟨f.type, f.hash⟩

/-- An envelope: a fact plus opaque signatures. -/
structure FactEnvelope where
  fact : FactRecord
  signatures : List String
deriving DecidableEq, Repr

/-- Association-list lookup by string key (JavaScript object /
IndexedDB keyed store access). -/
def alookup {β : Type} : List (String × β) → String → Option β
  | [], _ => none
  | (k, v) :: rest, key => if k = key then some v else alookup rest key

theorem alookup_append {β : Type} (l1 l2 : List (String × β)) (key : String) :
    alookup (l1 ++ l2) key =
      match alookup l1 key with
      | some v => some v
      | none => alookup l2 key := by
  induction l1 with
  | nil => simp [alookup]
  | cons p rest ih =>
    by_cases h : p.1 = key <;> simp [alookup, h, ih]

theorem mem_of_alookup {β : Type} {l : List (String × β)} {key : String} {v : β}
    (h : alookup l key = some v) : (key, v) ∈ l := by
  induction l with
  | nil => simp [alookup] at h
  | cons p rest ih =>
    by_cases hk : p.1 = key
    · simp [alookup, hk] at h
      subst h
      exact List.mem_cons.mpr (Or.inl (by cases p with | mk a b => simp_all))
    · simp [alookup, hk] at h
      exact List.mem_cons_of_mem _ (ih h)

theorem alookup_eq_some_of_mem {β : Type} {l : List (String × β)} {key : String} {v : β}
    (hnd : (l.map Prod.fst).Nodup) (h : (key, v) ∈ l) : alookup l key = some v := by
  induction l with
  | nil => simp at h
  | cons p rest ih =>
    simp only [List.map_cons, List.nodup_cons] at hnd
    rcases List.mem_cons.mp h with h1 | h1
    · subst h1
      simp [alookup]
    · have hne : p.1 ≠ key := by
        intro he
        exact hnd.1 (he ▸ (List.mem_map.mpr ⟨(key, v), h1, rfl⟩))
      simp [alookup, hne]
      exact ih hnd.2 h1

/-- lodash-style `filter(distinct)`: keep the first occurrence of each
element. -/
def keepFirstAux {α : Type} [DecidableEq α] : List α → List α → List α
  | _, [] => []
  | seen, x :: xs =>
    if x ∈ seen then keepFirstAux seen xs
    else x :: keepFirstAux (x :: seen) xs

def keepFirst {α : Type} [DecidableEq α] (l : List α) : List α :=
  keepFirstAux [] l

theorem mem_keepFirstAux {α : Type} [DecidableEq α] (seen l : List α) (a : α) :
    a ∈ keepFirstAux seen l ↔ (a ∈ l ∧ a ∉ seen) := by
  induction l generalizing seen with
  | nil => simp [keepFirstAux]
  | cons x xs ih =>
    by_cases hx : x ∈ seen
    · simp only [keepFirstAux, if_pos hx, ih, List.mem_cons]
      constructor
      · rintro ⟨h1, h2⟩
        exact ⟨Or.inr h1, h2⟩
      · rintro ⟨h1 | h1, h2⟩
        · exact absurd (h1 ▸ hx) h2
        · exact ⟨h1, h2⟩
    · simp only [keepFirstAux, if_neg hx, List.mem_cons, ih]
      constructor
      · rintro (h1 | ⟨h1, h2⟩)
        · exact ⟨Or.inl h1, h1 ▸ hx⟩
        · simp only [List.mem_cons, not_or] at h2
          exact ⟨Or.inr h1, h2.2⟩
      · rintro ⟨h1 | h1, h2⟩
        · exact Or.inl h1
        · by_cases hax : a = x
          · exact Or.inl hax
          · exact Or.inr ⟨h1, by simp [hax, h2]⟩

theorem nodup_keepFirstAux {α : Type} [DecidableEq α] (seen l : List α) :
    (keepFirstAux seen l).Nodup := by
  induction l generalizing seen with
  | nil => simp [keepFirstAux]
  | cons x xs ih =>
    by_cases hx : x ∈ seen
    · simpa [keepFirstAux, if_pos hx] using ih seen
    · simp only [keepFirstAux, if_neg hx, List.nodup_cons]
      refine ⟨?_, ih (x :: seen)⟩
      rw [mem_keepFirstAux]
      simp

theorem keepFirst_nodup {α : Type} [DecidableEq α] (l : List α) : (keepFirst l).Nodup :=
  nodup_keepFirstAux [] l

theorem mem_keepFirst {α : Type} [DecidableEq α] (l : List α) (a : α) :
    a ∈ keepFirst l ↔ a ∈ l := by
  simp [keepFirst, mem_keepFirstAux]

theorem keepFirstAux_eq_self {α : Type} [DecidableEq α] (seen l : List α)
    (hnd : l.Nodup) (hdisj : ∀ a ∈ l, a ∉ seen) : keepFirstAux seen l = l := by
  induction l generalizing seen with
  | nil => rfl
  | cons x xs ih =>
    simp only [List.nodup_cons] at hnd
    have hx : x ∉ seen := hdisj x (List.mem_cons_self x xs)
    simp only [keepFirstAux, if_neg hx]
    congr 1
    refine ih (x :: seen) hnd.2 ?_
    intro a ha
    simp only [List.mem_cons, not_or]
    exact ⟨fun he => hnd.1 (he ▸ ha), hdisj a (List.mem_cons_of_mem _ ha)⟩

theorem keepFirst_eq_self {α : Type} [DecidableEq α] (l : List α) (hnd : l.Nodup) :
    keepFirst l = l :=
  keepFirstAux_eq_self [] l hnd (by simp)

/-! ## IndexedDB store (src/indexeddb/indexeddb-store.ts) -/

/-- `factKey` (line 81): `type:hash`. -/
def factKey (r : FactReference) : String :=
  r.type ++ ":" ++ r.hash

/-- The list form of a role's predecessor value. -/
def predValueList : PredecessorValue → List FactReference
  | .single r => [r]
  | .multiple rs => rs

/-- `getPredecessors` (lines 7–24): tolerate a null fact and a
single-reference (non-array) role value. -/
def getPredecessors (fact : Option FactRecord) (role : String) : List FactReference :=
  match fact with
  | none => []
  | some f =>
    match alookup f.predecessors role with
    | none => []
    | some v => predValueList v

/-- All predecessor references of a record, roles in declaration order. -/
def predecessorRefs (f : FactRecord) : List FactReference :=
  f.predecessors.flatMap (fun p => predValueList p.2)

/-- An edge record, keyed by `[successor, predecessor, role]` (line 41). -/
structure Edge where
  successor : String
  predecessor : String
  role : String
deriving DecidableEq, Repr

/-- The edges derived from a fact (lines 119–121): one per declared
predecessor, in role declaration order. -/
def edgesOf (fact : FactRecord) : List Edge :=
  fact.predecessors.flatMap (fun p =>
    (predValueList p.2).map (fun pr => ⟨factKey fact.ref, factKey pr, p.1⟩))

/-- The three object stores of the `save`/`load` transactions, plus the
bookmark store of the storage contract, as association lists. -/
structure StoreState where
  facts : List (String × FactRecord)
  ancestors : List (String × List String)
  edges : List Edge
deriving DecidableEq, Repr

def emptyStore : StoreState := ⟨[], [], []⟩

/-- `edgeObjectStore.index('all').count(key)` (line 123). -/
def edgeCountS (s : StoreState) (key : String) : Nat :=
  (s.edges.filter (fun e => e.successor = key)).length

/-- `ancestorObjectStore.count(key)` (line 128). -/
def ancestorCountS (s : StoreState) (key : String) : Nat :=
  if (alookup s.ancestors key).isSome then 1 else 0

/-- `factObjectStore.count(key)` (line 132). -/
def factCountS (s : StoreState) (key : String) : Nat :=
  if (alookup s.facts key).isSome then 1 else 0

/-- `edgeObjectStore.add(edge)`: IndexedDB `add` throws when a record with
the same key exists; the key is the whole edge record. -/
def addEdges (s : StoreState) (es : List Edge) : Except String StoreState :=
  match es with
  | [] => .ok s
  | e :: rest =>
    if e ∈ s.edges then .error "ConstraintError"
    else addEdges { s with edges := s.edges ++ [e] } rest

/-- Modelled from the spec: `TopologicalSorter` (src/fact/sorter.ts is not
among the provided sources).  Per the storage contract the sorter
"topologically accepts inputs — caller must supply predecessors before or
within the same batch": a fact of the batch becomes ready once the mapped
results of all its predecessors are available, `sort` maps the ready facts
in some admissible order, and `finished()` reports whether every fact of
the batch was processed.  `findAllAncestors` (lines 100–115) maps each
ready fact to `flatten(predecessor ancestor sets).filter(distinct)
.concat([factKey(fact)])` and throws `Not all ancestors have been
provided` when the sorter did not finish.  (The model picks the first
ready fact at each step; which admissible order is taken does not affect
membership in the resulting ancestor sets, and the JSON dump the source
appends to the error message is elided.) -/
def topoAncestors : Nat → List (String × List String) → List FactRecord →
    Except String (List (String × List String))
  | _, acc, [] => .ok acc
  | 0, _, _ :: _ => .error "Not all ancestors have been provided"
  | fuel + 1, acc, p :: pending =>
    match (p :: pending).find? (fun f =>
        (predecessorRefs f).all (fun q => (alookup acc (factKey q)).isSome)) with
    | none => .error "Not all ancestors have been provided"
    | some f =>
      let ancs := keepFirst ((predecessorRefs f).flatMap
        (fun q => (alookup acc (factKey q)).getD [])) ++ [factKey f.ref]
      topoAncestors fuel (acc ++ [(factKey f.ref, ancs)]) ((p :: pending).erase f)

/-- `findAllAncestors` (lines 100–115).  Each successful sorter step
removes exactly one fact from the worklist, so a fuel of the batch length
realizes the sorter loop by structural recursion. -/
def findAllAncestors (facts : List FactRecord) :
    Except String (List (String × List String)) :=
  topoAncestors facts.length [] facts

/-- `saveFact` (lines 117–138): add missing edges, the ancestor set, and
the fact record, each guarded by a count; returns the fact when it was
newly written, `null` otherwise.  (`ancestorMap[key]` for a key the map
lacks is `undefined` in JavaScript; a successful `findAllAncestors` maps
every key of the batch, so the model reports the unreachable case as an
error.) -/
def saveFact (ancestorMap : List (String × List String)) (s : StoreState)
    (fact : FactRecord) : Except String (Option FactRecord × StoreState) :=
  let key := factKey fact.ref
  let edges := edgesOf fact
  let step1 : Except String StoreState :=
    if edges.length ≠ 0 then
      if edgeCountS s key ≠ edges.length then addEdges s edges else .ok s
    else .ok s
  match step1 with
  | .error msg => .error msg
  | .ok s1 =>
    let step2 : Except String StoreState :=
      if ancestorCountS s1 key = 0 then
        match alookup ancestorMap key with
        | some ancs => .ok { s1 with ancestors := s1.ancestors ++ [(key, ancs)] }
        | none => .error "undefined ancestor set"
      else .ok s1
    match step2 with
    | .error msg => .error msg
    | .ok s2 =>
      if factCountS s2 key = 0 then
        .ok (some fact, { s2 with facts := s2.facts ++ [(key, fact)] })
      else
        .ok (none, s2)

/-- The fold over the batch inside `IndexedDBStore.save` (the parallel
`Promise.all` of line 219 is modelled in batch order). -/
def saveBatch (ancestorMap : List (String × List String)) :
    List (Option FactRecord) × StoreState → List FactEnvelope →
    Except String (List (Option FactRecord) × StoreState)
  | acc, [] => .ok acc
  | acc, e :: rest =>
    match saveFact ancestorMap acc.2 e.fact with
    | .error msg => .error msg
    | .ok (r, s1) => saveBatch ancestorMap (acc.1 ++ [r], s1) rest

/-- `IndexedDBStore.save` (lines 212–225): compute the ancestor map of the
batch, save each envelope, and return an envelope for each newly written
fact. -/
def idbSave (s : StoreState) (envelopes : List FactEnvelope) :
    Except String (List FactEnvelope × StoreState) :=
  match findAllAncestors (envelopes.map (·.fact)) with
  | .error msg => .error msg
  | .ok ancestorMap =>
    match saveBatch ancestorMap ([], s) envelopes with
    | .error msg => .error msg
    | .ok (saved, s1) => .ok ((saved.filterMap id).map (fun f => ⟨f, []⟩), s1)

/-- The `flattenAsync` of `IndexedDBStore.load` (line 250): concatenate
the stored ancestor sets of the references.  (Fetching a key the ancestor
store lacks resolves with `undefined` in JavaScript and faults the
flatten; the spec calls this state `Corrupt`, and the model reports it as
an error.) -/
def collectAncestors (s : StoreState) :
    List String → List FactReference → Except String (List String)
  | acc, [] => .ok acc
  | acc, r :: rest =>
    match alookup s.ancestors (factKey r) with
    | some ancs => collectAncestors s (acc ++ ancs) rest
    | none => .error "Corrupt: ancestor closure missing"

/-- The multi-get of `IndexedDBStore.load` (line 254). -/
def loadRecords (s : StoreState) : List String → Except String (List FactRecord)
  | [] => .ok []
  | key :: rest =>
    match alookup s.facts key with
    | none => .error "Corrupt: fact record missing"
    | some f =>
      match loadRecords s rest with
      | .error msg => .error msg
      | .ok fs => .ok (f :: fs)

/-- `IndexedDBStore.load` (lines 245–259): flatten the stored ancestor
sets of the references, dedupe keeping first occurrences, and fetch each
record. -/
def idbLoad (s : StoreState) (references : List FactReference) :
    Except String (List FactRecord) :=
  match collectAncestors s [] references with
  | .error msg => .error msg
  | .ok allAncestors => loadRecords s (keepFirst allAncestors)

theorem flatMap_eq_nil_iff {α β : Type} (l : List α) (g : α → List β) :
    l.flatMap g = [] ↔ ∀ x ∈ l, g x = [] := by
  induction l with
  | nil => simp
  | cons x xs ih =>
    simp [List.flatMap_cons, List.append_eq_nil, ih, List.forall_mem_cons]

theorem edgesOf_nil_of_no_preds (f : FactRecord) (h : predecessorRefs f = []) :
    edgesOf f = [] := by
  unfold predecessorRefs at h
  unfold edgesOf
  rw [flatMap_eq_nil_iff] at h ⊢
  intro p hp
  simp [h p hp]

/-- A one-envelope batch has a computable ancestor map exactly when the
fact has no predecessors. -/
theorem findAllAncestors_singleton (f : FactRecord) :
    findAllAncestors [f] =
      if predecessorRefs f = [] then .ok [(factKey f.ref, [factKey f.ref])]
      else .error "Not all ancestors have been provided" := by
  unfold findAllAncestors
  by_cases hp : predecessorRefs f = []
  · have hpred : ((predecessorRefs f).all fun q =>
        (alookup ([] : List (String × List String)) (factKey q)).isSome) = true := by
      rw [hp]; rfl
    rw [if_pos hp]
    simp only [List.length_singleton, topoAncestors, List.find?_cons, hpred]
    simp [hp, keepFirst, keepFirstAux, List.erase_cons_head, topoAncestors]
  · obtain ⟨a, as, hpp⟩ : ∃ a as, predecessorRefs f = a :: as := by
      cases hq : predecessorRefs f with
      | nil => exact absurd hq hp
      | cons a as => exact ⟨a, as, rfl⟩
    have hpred : ((predecessorRefs f).all fun q =>
        (alookup ([] : List (String × List String)) (factKey q)).isSome) = false := by
      rw [hpp]; simp [alookup]
    rw [if_neg hp]
    simp only [List.length_singleton, topoAncestors, List.find?_cons, hpred, List.find?_nil]

theorem alookup_append_singleton_isSome {β : Type} (l : List (String × β)) (k : String) (v : β) :
    (alookup (l ++ [(k, v)]) k).isSome := by
  rw [alookup_append]
  cases alookup l k <;> simp [alookup]

/-- C4: `save` is idempotent on `(type, hash)`: after a save of `[e]` that
returned `e` as newly written, a second save of `[e]` writes nothing (the
state is unchanged) and returns the empty list, so two consecutive saves
of the same envelope yield exactly one new-envelope result in total. -/
theorem idbSave_idempotent (s0 s1 : StoreState) (e : FactEnvelope)
    (h : idbSave s0 [e] = .ok ([e], s1)) :
    idbSave s1 [e] = .ok ([], s1) := by
  obtain ⟨ef, es⟩ := e
  unfold idbSave at h ⊢
  rw [show ([(⟨ef, es⟩ : FactEnvelope)].map (·.fact)) = [ef] from rfl] at h ⊢
  rw [findAllAncestors_singleton] at h ⊢
  by_cases hp : predecessorRefs ef = []
  case neg => rw [if_neg hp] at h; simp at h
  case pos =>
  rw [if_pos hp] at h ⊢
  have hedges : edgesOf ef = [] := edgesOf_nil_of_no_preds _ hp
  by_cases ha : ancestorCountS s0 (factKey ef.ref) = 0
  · by_cases hb : factCountS
        ⟨s0.facts, s0.ancestors ++ [(factKey ef.ref, [factKey ef.ref])], s0.edges⟩
        (factKey ef.ref) = 0
    · simp [saveBatch, saveFact, hedges, alookup, ha, hb] at h
      obtain ⟨hes, hs1⟩ := h
      subst hes
      subst hs1
      have ha2 : ¬ ancestorCountS
          ⟨s0.facts ++ [(factKey ef.ref, ef)],
            s0.ancestors ++ [(factKey ef.ref, [factKey ef.ref])], s0.edges⟩
          (factKey ef.ref) = 0 := by
        simp [ancestorCountS, alookup_append_singleton_isSome]
      have hb2 : ¬ factCountS
          ⟨s0.facts ++ [(factKey ef.ref, ef)],
            s0.ancestors ++ [(factKey ef.ref, [factKey ef.ref])], s0.edges⟩
          (factKey ef.ref) = 0 := by
        simp [factCountS, alookup_append_singleton_isSome]
      simp [saveBatch, saveFact, hedges, ha2, hb2]
    · simp [saveBatch, saveFact, hedges, alookup, ha, hb] at h
  · by_cases hb : factCountS s0 (factKey ef.ref) = 0
    · simp [saveBatch, saveFact, hedges, alookup, ha, hb] at h
      obtain ⟨hes, hs1⟩ := h
      subst hes
      subst hs1
      have ha2 : ¬ ancestorCountS ⟨s0.facts ++ [(factKey ef.ref, ef)], s0.ancestors, s0.edges⟩
          (factKey ef.ref) = 0 := ha
      have hb2 : ¬ factCountS ⟨s0.facts ++ [(factKey ef.ref, ef)], s0.ancestors, s0.edges⟩
          (factKey ef.ref) = 0 := by
        simp [factCountS, alookup_append_singleton_isSome]
      simp [saveBatch, saveFact, hedges, ha2, hb2]
    · simp [saveBatch, saveFact, hedges, alookup, ha, hb] at h

/-- Witness for C4 at a concrete predecessor-free fact saved twice. -/
theorem idbSave_idempotent_witness :
    idbSave
      ⟨[("List:h1", ⟨"List", "h1", [("name", "Chores")], []⟩)],
        [("List:h1", ["List:h1"])], []⟩
      [⟨⟨"List", "h1", [("name", "Chores")], []⟩, []⟩] =
      .ok ([],
        ⟨[("List:h1", ⟨"List", "h1", [("name", "Chores")], []⟩)],
          [("List:h1", ["List:h1"])], []⟩) :=
  idbSave_idempotent emptyStore
    ⟨[("List:h1", ⟨"List", "h1", [("name", "Chores")], []⟩)],
      [("List:h1", ["List:h1"])], []⟩
    ⟨⟨"List", "h1", [("name", "Chores")], []⟩, []⟩
    (by rfl)

/-! ### C5: batches must supply predecessors within the batch -/

/-- Every edge's successor is a stored fact key.  This holds of every
state the store itself builds, because edges are only ever added in the
same transaction as their successor fact. -/
def StoreState.edgesClosed (s : StoreState) : Bool :=
  s.edges.all (fun e => (alookup s.facts e.successor).isSome)

theorem edgesOf_successor (f : FactRecord) (e : Edge) (he : e ∈ edgesOf f) :
    e.successor = factKey f.ref := by
  unfold edgesOf at he
  rw [List.mem_flatMap] at he
  obtain ⟨p, _, hmem⟩ := he
  rw [List.mem_map] at hmem
  obtain ⟨pr, _, heq⟩ := hmem
  rw [← heq]

theorem addEdges_ok (s : StoreState) (es : List Edge) (hnodup : es.Nodup)
    (hnot : ∀ e ∈ es, e ∉ s.edges) :
    addEdges s es = .ok { s with edges := s.edges ++ es } := by
  induction es generalizing s with
  | nil => simp [addEdges]
  | cons e rest ih =>
    simp only [addEdges]
    rw [if_neg (by simpa using hnot e (List.mem_cons_self e rest))]
    rw [ih { s with edges := s.edges ++ [e] } hnodup.of_cons ?_]
    · simp
    · intro x hx
      simp only [List.mem_append, List.mem_singleton, not_or]
      refine ⟨hnot x (List.mem_cons_of_mem _ hx), ?_⟩
      intro hxe
      rw [List.nodup_cons] at hnodup
      exact hnodup.1 (hxe ▸ hx)

theorem alookup_eq_none_append {β : Type} (l1 l2 : List (String × β)) (k : String)
    (h1 : alookup l1 k = none) (h2 : alookup l2 k = none) :
    alookup (l1 ++ l2) k = none := by
  rw [alookup_append, h1, h2]

theorem alookup_isSome_append {β : Type} (l1 l2 : List (String × β)) (k : String)
    (h1 : (alookup l1 k).isSome) : (alookup (l1 ++ l2) k).isSome := by
  rw [alookup_append]
  cases hl : alookup l1 k with
  | none => rw [hl] at h1; simp at h1
  | some v => simp

/-- A finished sorter run keeps every accumulated key. -/
theorem topoAncestors_mono (fuel : Nat) (acc : List (String × List String))
    (pending : List FactRecord) (res : List (String × List String))
    (h : topoAncestors fuel acc pending = .ok res) (key : String)
    (hk : (alookup acc key).isSome) : (alookup res key).isSome := by
  induction fuel generalizing acc pending with
  | zero =>
    cases pending with
    | nil => simp only [topoAncestors, Except.ok.injEq] at h; rw [← h]; exact hk
    | cons p ps => simp [topoAncestors] at h
  | succ fuel ih =>
    cases pending with
    | nil => simp only [topoAncestors, Except.ok.injEq] at h; rw [← h]; exact hk
    | cons p ps =>
      simp only [topoAncestors] at h
      cases hf : (p :: ps).find? (fun f =>
          (predecessorRefs f).all fun q => (alookup acc (factKey q)).isSome) with
      | none => rw [hf] at h; simp at h
      | some f =>
        rw [hf] at h
        exact ih _ _ h (alookup_isSome_append _ _ _ hk)

/-- A finished sorter run maps every fact of the batch. -/
theorem topoAncestors_covers (fuel : Nat) (acc : List (String × List String))
    (pending : List FactRecord) (res : List (String × List String))
    (h : topoAncestors fuel acc pending = .ok res) :
    ∀ f ∈ pending, (alookup res (factKey f.ref)).isSome := by
  induction fuel generalizing acc pending with
  | zero =>
    cases pending with
    | nil => simp
    | cons p ps => simp [topoAncestors] at h
  | succ fuel ih =>
    cases pending with
    | nil => simp
    | cons p ps =>
      simp only [topoAncestors] at h
      cases hf : (p :: ps).find? (fun f =>
          (predecessorRefs f).all fun q => (alookup acc (factKey q)).isSome) with
      | none => rw [hf] at h; simp at h
      | some f0 =>
        rw [hf] at h
        intro f hfmem
        by_cases hef : f = f0
        · subst hef
          refine topoAncestors_mono _ _ _ _ h _ ?_
          exact alookup_append_singleton_isSome _ _ _
        · exact ih _ _ h f ((List.mem_erase_of_ne hef).mpr hfmem)

/-- Saving a fresh fact into a state whose edges are closed succeeds and
appends the fact. -/
theorem saveFact_fresh (m : List (String × List String)) (s : StoreState) (f : FactRecord)
    (hclosed : s.edgesClosed = true)
    (hfresh : alookup s.facts (factKey f.ref) = none)
    (hcov : (alookup m (factKey f.ref)).isSome)
    (hdup : (edgesOf f).Nodup) :
    ∃ s2 : StoreState, saveFact m s f = .ok (some f, s2) ∧
      s2.facts = s.facts ++ [(factKey f.ref, f)] ∧
      s2.edgesClosed = true := by
  have hsucc : ∀ e ∈ edgesOf f, e ∉ s.edges := by
    intro e he hmem
    have h1 := edgesOf_successor f e he
    have h2 := (List.all_eq_true.mp hclosed) e hmem
    rw [h1, hfresh] at h2
    simp at h2
  have hcount : edgeCountS s (factKey f.ref) = 0 := by
    unfold edgeCountS
    rw [List.length_eq_zero, List.filter_eq_nil_iff]
    intro e hmem
    have h2 := (List.all_eq_true.mp hclosed) e hmem
    simp only [decide_eq_true_eq]
    intro hsu
    rw [hsu, hfresh] at h2
    simp at h2
  -- the state after the edge step
  have hstep1 : ∃ s1 : StoreState,
      (if (edgesOf f).length ≠ 0 then
        if edgeCountS s (factKey f.ref) ≠ (edgesOf f).length then addEdges s (edgesOf f)
        else .ok s
      else .ok s) = .ok s1 ∧
      s1.facts = s.facts ∧ s1.ancestors = s.ancestors ∧
      (∀ e ∈ s1.edges, e ∈ s.edges ∨ e ∈ edgesOf f) := by
    by_cases he : (edgesOf f).length ≠ 0
    · rw [if_pos he, if_pos (by rw [hcount]; exact fun hh => he hh.symm)]
      refine ⟨_, addEdges_ok s _ hdup hsucc, rfl, rfl, ?_⟩
      intro e hmem
      simpa using List.mem_append.mp hmem
    · rw [if_neg he]
      exact ⟨s, rfl, rfl, rfl, fun e hmem => Or.inl hmem⟩
  obtain ⟨s1, hs1, hs1f, hs1a, hs1e⟩ := hstep1
  obtain ⟨ancs, hancs⟩ := Option.isSome_iff_exists.mp hcov
  have hstep2 : ∃ s2 : StoreState,
      ((if ancestorCountS s1 (factKey f.ref) = 0 then
        match alookup m (factKey f.ref) with
        | some ancs => .ok { s1 with ancestors := s1.ancestors ++ [(factKey f.ref, ancs)] }
        | none => .error "undefined ancestor set"
      else .ok s1) : Except String StoreState) = .ok s2 ∧
      s2.facts = s1.facts ∧ s2.edges = s1.edges := by
    by_cases ha : ancestorCountS s1 (factKey f.ref) = 0
    · rw [if_pos ha, hancs]
      exact ⟨_, rfl, rfl, rfl⟩
    · rw [if_neg ha]
      exact ⟨s1, rfl, rfl, rfl⟩
  obtain ⟨s2, hs2, hs2f, hs2e⟩ := hstep2
  have hfc : factCountS s2 (factKey f.ref) = 0 := by
    unfold factCountS
    rw [hs2f, hs1f, hfresh]
    rfl
  refine ⟨{ s2 with facts := s2.facts ++ [(factKey f.ref, f)] }, ?_, ?_, ?_⟩
  · simp only [saveFact, hs1, hs2, hfc]
    simp
  · rw [hs2f, hs1f]
  · unfold StoreState.edgesClosed
    rw [List.all_eq_true]
    intro e hmem
    simp only at hmem
    rw [hs2e] at hmem
    rcases hs1e e hmem with hold | hnew
    · have h2 := (List.all_eq_true.mp hclosed) e hold
      simp only [hs2f, hs1f]
      simp only [decide_eq_true_eq] at h2 ⊢
      exact alookup_isSome_append _ _ _ h2
    · rw [edgesOf_successor f e hnew]
      simp only [hs2f, hs1f, decide_eq_true_eq]
      exact alookup_append_singleton_isSome _ _ _

/-- A batch of fresh facts with duplicate-free keys all save as new. -/
theorem saveBatch_all_new (m : List (String × List String))
    (envelopes : List FactEnvelope) (acc : List (Option FactRecord)) (s : StoreState)
    (hcov : ∀ en ∈ envelopes, (alookup m (factKey en.fact.ref)).isSome)
    (hclosed : s.edgesClosed = true)
    (hfresh : ∀ en ∈ envelopes, alookup s.facts (factKey en.fact.ref) = none)
    (hkeys : (envelopes.map (fun en => factKey en.fact.ref)).Nodup)
    (hdup : ∀ en ∈ envelopes, (edgesOf en.fact).Nodup) :
    ∃ s2, saveBatch m (acc, s) envelopes =
      .ok (acc ++ envelopes.map (fun en => some en.fact), s2) := by
  induction envelopes generalizing acc s with
  | nil => exact ⟨s, by simp [saveBatch]⟩
  | cons en rest ih =>
    obtain ⟨s2, hsf, hs2f, hs2c⟩ := saveFact_fresh m s en.fact hclosed
      (hfresh en (List.mem_cons_self en rest))
      (hcov en (List.mem_cons_self en rest))
      (hdup en (List.mem_cons_self en rest))
    simp only [List.map_cons, List.nodup_cons] at hkeys
    obtain ⟨s3, hs3⟩ := ih (acc ++ [some en.fact]) s2
      (fun x hx => hcov x (List.mem_cons_of_mem _ hx))
      hs2c
      (fun x hx => by
        rw [hs2f]
        refine alookup_eq_none_append _ _ _ (hfresh x (List.mem_cons_of_mem _ hx)) ?_
        have hne : factKey en.fact.ref ≠ factKey x.fact.ref := by
          intro he
          exact hkeys.1 (he ▸ (List.mem_map.mpr ⟨x, hx, rfl⟩))
        simp [alookup, hne])
      hkeys.2
      (fun x hx => hdup x (List.mem_cons_of_mem _ hx))
    refine ⟨s3, ?_⟩
    simp only [saveBatch, hsf, hs3]
    simp

/-- C5 counterexample: a fact whose only predecessor was saved in an
earlier batch — so it is present in storage but not supplied in the
current batch — makes `save` throw `Not all ancestors have been provided`
instead of succeeding. -/
theorem idbSave_prior_batch_predecessor_fails :
    idbSave emptyStore [⟨⟨"List", "hA", [], []⟩, []⟩] =
      .ok ([⟨⟨"List", "hA", [], []⟩, []⟩],
        ⟨[("List:hA", ⟨"List", "hA", [], []⟩)], [("List:hA", ["List:hA"])], []⟩) ∧
    idbSave ⟨[("List:hA", ⟨"List", "hA", [], []⟩)], [("List:hA", ["List:hA"])], []⟩
      [⟨⟨"Task", "hB", [], [("list", .single ⟨"List", "hA"⟩)]⟩, []⟩] =
      .error "Not all ancestors have been provided" := by
  constructor <;> rfl

theorem filterMap_some_facts (l : List FactEnvelope) :
    ((l.map (fun en => some en.fact)).filterMap id).map (fun f => (⟨f, []⟩ : FactEnvelope)) =
      l.map (fun en => (⟨en.fact, []⟩ : FactEnvelope)) := by
  induction l with
  | nil => rfl
  | cons a l ih => simp_all [List.filterMap_cons]

/-- C5 amended: `IndexedDBStore.save` succeeds when every fact's
predecessors are supplied within the same batch (so that the batch's
ancestor map is computable), the batch's facts are new to the store with
duplicate-free keys and duplicate-free declared edges, and the state's
edges are closed; predecessors saved in an earlier batch but not
resupplied in the current batch do not help — `findAllAncestors` rejects
such a batch (see the counterexample). -/
theorem idbSave_batch_closed_succeeds (s : StoreState) (envelopes : List FactEnvelope)
    (m : List (String × List String))
    (hmap : findAllAncestors (envelopes.map (·.fact)) = .ok m)
    (hclosed : s.edgesClosed = true)
    (hfresh : ∀ en ∈ envelopes, alookup s.facts (factKey en.fact.ref) = none)
    (hkeys : (envelopes.map (fun en => factKey en.fact.ref)).Nodup)
    (hdup : ∀ en ∈ envelopes, (edgesOf en.fact).Nodup) :
    ∃ s2, idbSave s envelopes =
      .ok (envelopes.map (fun en => ⟨en.fact, []⟩), s2) := by
  have hcov : ∀ en ∈ envelopes, (alookup m (factKey en.fact.ref)).isSome := by
    intro en hen
    exact topoAncestors_covers _ _ _ _ hmap en.fact
      (List.mem_map.mpr ⟨en, hen, rfl⟩)
  obtain ⟨s2, hs2⟩ := saveBatch_all_new m envelopes [] s hcov hclosed hfresh hkeys hdup
  refine ⟨s2, ?_⟩
  unfold idbSave
  simp only [hmap, hs2]
  simp only [List.nil_append, Except.ok.injEq, Prod.mk.injEq]
  exact ⟨filterMap_some_facts envelopes, trivial⟩

/-- Witness for C5 (amended) at a two-fact batch supplying the
predecessor within the batch. -/
theorem idbSave_batch_closed_succeeds_witness :
    ∃ s2, idbSave emptyStore
      [⟨⟨"List", "hA", [], []⟩, []⟩,
        ⟨⟨"Task", "hB", [], [("list", .single ⟨"List", "hA"⟩)]⟩, []⟩] =
      .ok ([⟨⟨"List", "hA", [], []⟩, []⟩,
        ⟨⟨"Task", "hB", [], [("list", .single ⟨"List", "hA"⟩)]⟩, []⟩], s2) :=
  idbSave_batch_closed_succeeds emptyStore _
    [("List:hA", ["List:hA"]), ("Task:hB", ["List:hA", "Task:hB"])]
    (by rfl) (by rfl) (by decide) (by decide) (by decide)

/-! ### C6: `load` returns the ancestor closure -/

/-- The stored ancestor set of `k` is a duplicate-free list satisfying the
closure recurrence `ancestors(f) = predecessor ancestor sets ∪ {f}`. -/
def ancestorEntryOkB (s : StoreState) (k : String) (f : FactRecord) : Bool :=
  match alookup s.ancestors k with
  | none => false
  | some A =>
    decide A.Nodup && decide (k ∈ A) &&
    (predecessorRefs f).all (fun p =>
      match alookup s.ancestors (factKey p) with
      | none => false
      | some Ap => Ap.all (fun a => decide (a ∈ A))) &&
    A.all (fun a => decide (a = k) || (predecessorRefs f).any (fun p =>
      match alookup s.ancestors (factKey p) with
      | none => false
      | some Ap => decide (a ∈ Ap)))

/-- Well-formedness that `save` maintains: fact keys are unique and match
their records, every stored fact's ancestor entry satisfies the closure
recurrence, and every member of a stored ancestor set is itself stored. -/
def StoreState.wf (s : StoreState) : Bool :=
  decide (s.facts.map Prod.fst).Nodup &&
  s.facts.all (fun kf => decide (factKey kf.2.ref = kf.1)) &&
  s.facts.all (fun kf => ancestorEntryOkB s kf.1 kf.2) &&
  s.ancestors.all (fun ka => ka.2.all (fun a => (alookup s.facts a).isSome))

theorem loadRecords_ok (s : StoreState) (keys : List String)
    (h : ∀ kk ∈ keys, (alookup s.facts kk).isSome) :
    ∃ rs, loadRecords s keys = .ok rs ∧
      List.Forall₂ (fun kk r => alookup s.facts kk = some r) keys rs := by
  induction keys with
  | nil => exact ⟨[], rfl, List.Forall₂.nil⟩
  | cons kk rest ih =>
    obtain ⟨r, hr⟩ := Option.isSome_iff_exists.mp (h kk (List.mem_cons_self kk rest))
    obtain ⟨rs, hrs, hf⟩ := ih (fun x hx => h x (List.mem_cons_of_mem _ hx))
    refine ⟨r :: rs, ?_, List.Forall₂.cons hr hf⟩
    simp [loadRecords, hr, hrs]

theorem map_eq_of_forall2 {α β : Type} (R : α → β → Prop) (g : β → α)
    (keys : List α) (rs : List β) (hf : List.Forall₂ R keys rs)
    (hg : ∀ a b, R a b → g b = a) : rs.map g = keys := by
  induction hf with
  | nil => rfl
  | cons h _ ih => simp [hg _ _ h, ih]

/-- C6: for every stored fact `f`, `load [ref f]` returns exactly the
records of the stored ancestor set of `f`, without duplicates, and that
ancestor set satisfies
`ancestors(f) = {f} ∪ ⋃ ancestors(p) for p in predecessors(f)`. -/
theorem idbLoad_ancestor_closure (s : StoreState) (k : String) (f : FactRecord)
    (hwf : s.wf = true) (hmem : (k, f) ∈ s.facts) :
    ∃ A rs, alookup s.ancestors k = some A ∧
      idbLoad s [f.ref] = .ok rs ∧
      rs.map (fun r => factKey r.ref) = A ∧
      rs.Nodup ∧
      (∀ a, a ∈ A ↔ (a = k ∨ ∃ p ∈ predecessorRefs f, ∃ Ap,
        alookup s.ancestors (factKey p) = some Ap ∧ a ∈ Ap)) := by
  unfold StoreState.wf at hwf
  simp only [Bool.and_eq_true, decide_eq_true_eq, List.all_eq_true] at hwf
  obtain ⟨⟨⟨hnd, hkeys⟩, hance⟩, hstored⟩ := hwf
  have hkf : factKey f.ref = k := by simpa using hkeys (k, f) hmem
  have hent := hance (k, f) hmem
  unfold ancestorEntryOkB at hent
  cases hA : alookup s.ancestors k with
  | none => rw [hA] at hent; simp at hent
  | some A =>
    rw [hA] at hent
    simp only [Bool.and_eq_true, decide_eq_true_eq, List.all_eq_true] at hent
    obtain ⟨⟨⟨hAnd, hkA⟩, hsub⟩, hrec⟩ := hent
    have hAstored : ∀ a ∈ A, (alookup s.facts a).isSome := by
      intro a ha
      have := hstored (k, A) (mem_of_alookup hA)
      simpa using List.all_eq_true.mp (by simpa using this) a ha
    obtain ⟨rs, hload, hf2⟩ := loadRecords_ok s A hAstored
    have hmap : rs.map (fun r => factKey r.ref) = A := by
      refine map_eq_of_forall2 _ _ _ _ hf2 ?_
      intro a b hab
      exact hkeys (a, b) (mem_of_alookup hab)
    refine ⟨A, rs, rfl, ?_, hmap, ?_, ?_⟩
    · unfold idbLoad collectAncestors
      rw [hkf, hA]
      simp [collectAncestors, keepFirst_eq_self _ hAnd, hload]
    · have hmn : (rs.map (fun r => factKey r.ref)).Nodup := by rw [hmap]; exact hAnd
      exact hmn.of_map
    · intro a
      constructor
      · intro ha
        have hr := hrec a ha
        simp only [Bool.or_eq_true, decide_eq_true_eq, List.any_eq_true] at hr
        rcases hr with hr | ⟨p, hp, hm⟩
        · exact Or.inl hr
        · cases hAp : alookup s.ancestors (factKey p) with
          | none => rw [hAp] at hm; simp at hm
          | some Ap =>
            rw [hAp] at hm
            simp only [decide_eq_true_eq] at hm
            exact Or.inr ⟨p, hp, Ap, hAp, hm⟩
      · rintro (rfl | ⟨p, hp, Ap, hAp, hmm⟩)
        · exact hkA
        · have hall := hsub p hp
          rw [hAp] at hall
          simpa using List.all_eq_true.mp hall a hmm

/-- A concrete store holding a `List` fact and a `Task` fact whose `list`
role points at it, with the corresponding ancestor sets and edge. -/
def exampleStore2 : StoreState :=
  ⟨[("List:hA", ⟨"List", "hA", [], []⟩),
      ("Task:hB", ⟨"Task", "hB", [], [("list", .single ⟨"List", "hA"⟩)]⟩)],
    [("List:hA", ["List:hA"]), ("Task:hB", ["List:hA", "Task:hB"])],
    [⟨"Task:hB", "List:hA", "list"⟩]⟩

/-- Witness for C6 at the concrete two-fact store. -/
theorem idbLoad_ancestor_closure_witness :
    ∃ A rs, alookup exampleStore2.ancestors "Task:hB" = some A ∧
      idbLoad exampleStore2
        [FactRecord.ref ⟨"Task", "hB", [], [("list", .single ⟨"List", "hA"⟩)]⟩] = .ok rs ∧
      rs.map (fun r => factKey r.ref) = A ∧
      rs.Nodup ∧
      (∀ a, a ∈ A ↔ (a = "Task:hB" ∨
        ∃ p ∈ predecessorRefs ⟨"Task", "hB", [], [("list", .single ⟨"List", "hA"⟩)]⟩,
        ∃ Ap, alookup exampleStore2.ancestors (factKey p) = some Ap ∧ a ∈ Ap)) :=
  idbLoad_ancestor_closure exampleStore2 "Task:hB"
    ⟨"Task", "hB", [], [("list", .single ⟨"List", "hA"⟩)]⟩ (by decide) (by decide)

/-! ## `Subscriber.connectToFeed` (src/observer/subscriber.ts, lines 54–75)

The subscriber works against the abstract `Storage` interface.  Modelled
from the spec (storage contract, §4.2): `which_exist(refs)` returns the
subset of refs already present (so the JavaScript `includes` test on its
result coincides with value membership), `save` persists the envelopes,
and `save_bookmark`/`load_bookmark` are a feed-name-keyed durable map. -/

/-- The slice of storage state the subscriber touches. -/
structure SubStore where
  existing : List FactReference
  bookmarks : List (String × String)
deriving DecidableEq, Repr

def whichExist (st : SubStore) (refs : List FactReference) : List FactReference :=
  refs.filter (fun r => r ∈ st.existing)

def storeSave (st : SubStore) (graph : List FactEnvelope) : SubStore :=
  { st with existing := st.existing ++ graph.map (fun en => en.fact.ref) }

def saveBookmark (st : SubStore) (feed b : String) : SubStore :=
  { st with bookmarks := (feed, b) :: st.bookmarks }

def loadBookmark (st : SubStore) (feed : String) : String :=
  (alookup st.bookmarks feed).getD ""

/-- The known/unknown split of an event's references (lines 56–57):
`whichExist` reports the known subset, and the unknown ones are those not
in it. -/
def unknownRefs (st : SubStore) (factReferences : List FactReference) :
    List FactReference :=
  factReferences.filter (fun fr => ¬ fr ∈ whichExist st factReferences)

/-- The stream-event handler passed to `network.streamFeed` (lines
55–68).  `load` stands for `network.load`; alongside the updated store
the model returns the list of graphs passed to `store.save`. -/
def handleFeedEvent (feed : String) (load : List FactReference → List FactEnvelope)
    (st : SubStore) (factReferences : List FactReference) (nextBookmark : String) :
    SubStore × List (List FactEnvelope) :=
  let unknownFactReferences := unknownRefs st factReferences
  if unknownFactReferences.length > 0 then
    let graph := load unknownFactReferences
    let st1 := storeSave st graph
    let st2 := saveBookmark st1 feed nextBookmark
    (st2, [graph])
  else
    (st, [])

/-- C7 counterexample: a stream event whose references all already exist
leaves the persisted bookmark untouched — `loadBookmark` still returns
the old bookmark `"b0"`, not the event's `next_bookmark` `"B1"` — even
though no save occurs. -/
theorem subscriber_known_event_skips_bookmark :
    handleFeedEvent "feed1" (fun _ => []) ⟨[⟨"List", "hA"⟩], [("feed1", "b0")]⟩
      [⟨"List", "hA"⟩] "B1" = (⟨[⟨"List", "hA"⟩], [("feed1", "b0")]⟩, []) ∧
    loadBookmark ⟨[⟨"List", "hA"⟩], [("feed1", "b0")]⟩ "feed1" = "b0" ∧
    ("b0" : String) ≠ "B1" := by
  refine ⟨?_, rfl, ?_⟩ <;> decide

/-- C7 amended: when at least one reference of the event is unknown, the
event's bookmark is persisted (a subsequent `loadBookmark` of the feed
returns it) and `store.save` is invoked exactly once, on the graph loaded
for the unknown references only (never on the references `whichExist`
reported as present); but when every reference already exists, the
handler does nothing: no save, and no bookmark persistence either. -/
theorem subscriber_feed_event (feed : String)
    (load : List FactReference → List FactEnvelope) (st : SubStore)
    (refs : List FactReference) (B : String) :
    (unknownRefs st refs = [] →
      handleFeedEvent feed load st refs B = (st, [])) ∧
    (unknownRefs st refs ≠ [] →
      loadBookmark (handleFeedEvent feed load st refs B).1 feed = B ∧
      (handleFeedEvent feed load st refs B).2 = [load (unknownRefs st refs)]) := by
  constructor
  · intro h
    simp only [handleFeedEvent]
    rw [h]
    simp
  · intro h
    have hlen : (unknownRefs st refs).length > 0 := by
      cases hq : unknownRefs st refs with
      | nil => exact absurd hq h
      | cons a as => simp [hq]
    constructor
    · simp only [handleFeedEvent, if_pos hlen]
      simp [loadBookmark, saveBookmark, storeSave, alookup]
    · simp only [handleFeedEvent, if_pos hlen]

/-- Witness for C7 (amended) at an event with one unknown reference. -/
theorem subscriber_feed_event_witness :
    loadBookmark (handleFeedEvent "feed1"
      (fun rs => rs.map (fun r => ⟨⟨r.type, r.hash, [], []⟩, []⟩))
      ⟨[], [("feed1", "b0")]⟩ [⟨"List", "hA"⟩] "B1").1 "feed1" = "B1" :=
  ((subscriber_feed_event "feed1"
      (fun rs => rs.map (fun r => ⟨⟨r.type, r.hash, [], []⟩, []⟩))
      ⟨[], [("feed1", "b0")]⟩ [⟨"List", "hA"⟩] "B1").2 (by decide)).1

/-! ## Authorization (unnamed source part, `authorization-rules`)

Step queries (src/query/steps shapes) and the specification language
(src/specification/specification shapes, reconstructed from their use in
the authorization module). -/

inductive Direction where
  | predecessor
  | successor
deriving DecidableEq, Repr

inductive Quantifier where
  | existsQ
  | notExistsQ
deriving DecidableEq, Repr

/-- A legacy query step: `Join`, `PropertyCondition` or
`ExistentialCondition`. -/
inductive Step where
  | join (direction : Direction) (role : String)
  | propertyCondition (name : String) (value : String)
  | existentialCondition (quantifier : Quantifier) (steps : List Step)
deriving Repr

/-- A legacy query: a sequence of steps. -/
structure Query where
  steps : List Step
deriving Repr

structure Label where
  name : String
  type : String
deriving DecidableEq, Repr

structure Role where
  name : String
  predecessorType : String
deriving DecidableEq, Repr

mutual
/-- A specification match: an unknown label and its conditions. -/
inductive Match where
  | mk (unknown : Label) (conditions : List Condition)

/-- A path condition (`rolesRight` walked as predecessor steps from
`labelRight`, `rolesLeft` as successor steps) or an existential
condition (`exs` is the source's `exists` flag). -/
inductive Condition where
  | path (rolesRight : List Role) (labelRight : String) (rolesLeft : List Role)
  | existential (exs : Bool) (matchList : List Match)
end

def Match.unknown : Match → Label
  | .mk u _ => u

def Match.conditions : Match → List Condition
  | .mk _ cs => cs

/-- The projection of a specification: a singular label (`fact`) or any
other projection shape (field, composite, …), which the authorization
engine rejects. -/
inductive Projection where
  | fact (label : String)
  | other
deriving Repr

structure Specification where
  given : List Label
  matchList : List Match
  projection : Projection

/-- Bindings from label names to references (`ReferencesByName`); the
spread `{...references, [name]: ref}` is modelled by shadowing
prepend. -/
def RefsByName : Type := List (String × FactReference)

/-- `factReferenceEquals` (src/storage.ts): type and hash agree. -/
def factReferenceEquals (a : FactReference) (r : FactRecord) : Bool :=
  r.type = a.type ∧ r.hash = a.hash

/-- `Evidence.findFact` (lines 141–143). -/
def findFact (factRecords : List FactRecord) (reference : FactReference) :
    Option FactRecord :=
  factRecords.find? (factReferenceEquals reference)

/-- `Evidence.executeStep` (lines 27–45): only `type` property conditions
and predecessor joins are executable against evidence; anything else is a
defect.  A fact with no record in evidence contributes no predecessors
(`getPredecessors` of a null record is `[]`). -/
def evidenceStep (factRecords : List FactRecord) (facts : List FactReference) :
    Step → Except String (List FactReference)
  | .propertyCondition name value =>
    if name = "type" then
      .ok (facts.filter (fun fact => fact.type = value))
    else .error "Defect in parsing authorization rule."
  | .join direction role =>
    if direction = .predecessor then
      .ok (facts.flatMap (fun fact => getPredecessors (findFact factRecords fact) role))
    else .error "Defect in parsing authorization rule."
  | .existentialCondition _ _ => .error "Defect in parsing authorization rule."

/-- The `steps.reduce` of `Evidence.executeQuery` (lines 21–25). -/
def evidenceSteps (factRecords : List FactRecord) :
    List FactReference → List Step → Except String (List FactReference)
  | facts, [] => .ok facts
  | facts, step :: rest =>
    match evidenceStep factRecords facts step with
    | .error msg => .error msg
    | .ok facts2 => evidenceSteps factRecords facts2 rest

/-- `Evidence.query` (lines 16–19). -/
def evidenceQuery (factRecords : List FactRecord) (start : FactReference)
    (q : Query) : Except String (List FactReference) :=
  evidenceSteps factRecords [start] q.steps

/-- The `flatten` of `Evidence.executePredecessorStep` (lines 110–119):
walk one predecessor role; a fact reference with no record in the
evidence throws. -/
def executePredecessorStep (factRecords : List FactRecord) :
    List FactReference → String → String → Except String (List FactReference)
  | [], _, _ => .ok []
  | reference :: rest, name, predecessorType =>
    match findFact factRecords reference with
    | none => .error ("The fact " ++ reference.type ++ ":" ++ reference.hash ++
        " is not defined.")
    | some record =>
      match executePredecessorStep factRecords rest name predecessorType with
      | .error msg => .error msg
      | .ok more =>
        .ok ((getPredecessors (some record) name).filter
          (fun predecessor => predecessor.type = predecessorType) ++ more)

/-- The `rolesRight.reduce` of `Evidence.executePathCondition`
(lines 100–103). -/
def predecessorWalk (factRecords : List FactRecord) :
    List FactReference → List Role → Except String (List FactReference)
  | set, [] => .ok set
  | set, role :: rest =>
    match executePredecessorStep factRecords set role.name role.predecessorType with
    | .error msg => .error msg
    | .ok set2 => predecessorWalk factRecords set2 rest

/-- `Evidence.executePathCondition` (lines 95–108). -/
def executePathCondition (factRecords : List FactRecord) (references : RefsByName)
    (rolesRight : List Role) (labelRight : String) (rolesLeft : List Role) :
    Except String (List FactReference) :=
  match alookup references labelRight with
  | none => .error ("The label " ++ labelRight ++ " is not defined.")
  | some start =>
    match predecessorWalk factRecords [start] rolesRight with
    | .error msg => .error msg
    | .ok predecessors =>
      if rolesLeft.length > 0 then .error "Cannot execute successor steps on evidence."
      else .ok predecessors

mutual

/-- The `matches.reduce` of `Evidence.executeMatches` (lines 58–66),
running from an accumulated tuple list. -/
def executeMatchesFrom (factRecords : List FactRecord)
    (acc : List RefsByName) (ms : List Match) : Except String (List RefsByName) :=
  match ms with
  | [] => .ok acc
  | m :: rest =>
    match executeMatchTuples factRecords acc m with
    | .error msg => .error msg
    | .ok acc2 => executeMatchesFrom factRecords acc2 rest
termination_by (sizeOf ms, 0, 0)

/-- The `tuples.flatMap` of `Evidence.executeMatches`. -/
def executeMatchTuples (factRecords : List FactRecord)
    (ts : List RefsByName) (m : Match) : Except String (List RefsByName) :=
  match ts with
  | [] => .ok []
  | t :: ts2 =>
    match executeMatch factRecords t m with
    | .error msg => .error msg
    | .ok rs =>
      match executeMatchTuples factRecords ts2 m with
      | .error msg => .error msg
      | .ok rest => .ok (rs ++ rest)
termination_by (sizeOf m, 1, ts.length)

/-- `Evidence.executeMatch` (lines 68–93). -/
def executeMatch (factRecords : List FactRecord) (references : RefsByName)
    (m : Match) : Except String (List RefsByName) :=
  match m with
  | .mk unknown conditions =>
    match conditions with
    | [] => .error "A match must have at least one condition."
    | firstCondition :: remainingConditions =>
      match firstCondition with
      | .existential _ _ => .error "The first condition must be a path condition."
      | .path rolesRight labelRight rolesLeft =>
        match executePathCondition factRecords references rolesRight labelRight rolesLeft with
        | .error msg => .error msg
        | .ok result =>
          let results := result.map (fun reference =>
            ((unknown.name, (⟨reference.type, reference.hash⟩ : FactReference)) :: references))
          filterByConditions factRecords references unknown results remainingConditions
termination_by (sizeOf m, 0, 0)

/-- The fold over `remainingConditions` of `Evidence.executeMatch`
(lines 88–91). -/
def filterByConditions (factRecords : List FactRecord) (references : RefsByName)
    (unknown : Label) (results : List RefsByName) (cs : List Condition) :
    Except String (List RefsByName) :=
  match cs with
  | [] => .ok results
  | c :: rest =>
    match filterByCondition factRecords references unknown results c with
    | .error msg => .error msg
    | .ok results2 => filterByConditions factRecords references unknown results2 rest
termination_by (sizeOf cs, 1, 0)

/-- `Evidence.filterByCondition` (lines 121–139). -/
def filterByCondition (factRecords : List FactRecord) (references : RefsByName)
    (unknown : Label) (results : List RefsByName) (c : Condition) :
    Except String (List RefsByName) :=
  match c with
  | .path rolesRight labelRight rolesLeft =>
    match executePathCondition factRecords references rolesRight labelRight rolesLeft with
    | .error msg => .error msg
    | .ok otherResults =>
      .ok (results.filter (fun result =>
        match alookup result unknown.name with
        | none => false
        | some r => otherResults.any (fun o => o = r)))
  | .existential exs matchList =>
    filterExistential factRecords exs matchList results
termination_by (sizeOf c, 0, 0)

/-- The `results.filter` of the existential branch of
`Evidence.filterByCondition` (lines 127–132). -/
def filterExistential (factRecords : List FactRecord) (exs : Bool)
    (matchList : List Match) (results : List RefsByName) :
    Except String (List RefsByName) :=
  match results with
  | [] => .ok []
  | r :: rs =>
    match executeMatchesFrom factRecords [r] matchList with
    | .error msg => .error msg
    | .ok ms =>
      match filterExistential factRecords exs matchList rs with
      | .error msg => .error msg
      | .ok rest =>
        .ok (if (if exs then ms.length > 0 else ms.length = 0) then r :: rest else rest)
termination_by (sizeOf matchList, 1, results.length)

end

/-- `Evidence.executeSpecification` (lines 47–56).  `result[label]` for a
tuple lacking the label is JavaScript `undefined`, hence `Option`. -/
def executeSpecification (factRecords : List FactRecord) (givenName : String)
    (matchList : List Match) (label : String) (fact : FactRecord) :
    Except String (List (Option FactReference)) :=
  let references : RefsByName := [(givenName, ⟨fact.type, fact.hash⟩)]
  match executeMatchesFrom factRecords [references] matchList with
  | .error msg => .error msg
  | .ok results => .ok (results.map (fun result => alookup result label))

mutual

/-- `seeksSuccessors` (lines 214–219): some condition is a path condition
with a non-empty `rolesLeft`, or an existential whose matches seek
successors. -/
def seeksSuccessors (m : Match) : Bool :=
  match m with
  | .mk _ conditions => seeksSuccessorsConds conditions

def seeksSuccessorsConds (cs : List Condition) : Bool :=
  match cs with
  | [] => false
  | c :: rest =>
    (match c with
      | .path _ _ rolesLeft => rolesLeft.length > 0
      | .existential _ matchList => seeksSuccessorsMatches matchList) ||
    seeksSuccessorsConds rest

def seeksSuccessorsMatches (ms : List Match) : Bool :=
  match ms with
  | [] => false
  | m :: rest => seeksSuccessors m || seeksSuccessorsMatches rest

end

/-- `headStep` (lines 146–156). -/
def headStep : Step → Bool
  | .propertyCondition name _ => name = "type"
  | .join direction _ => direction = .predecessor
  | .existentialCondition _ _ => false

/-- The authorization rule kinds (`AuthorizationRuleAny` /
`AuthorizationRuleNone` / `AuthorizationRuleQuery` /
`AuthorizationRuleSpecification`). -/
inductive AuthorizationRule where
  | anyRule
  | noneRule
  | queryRule (head : Query) (tail : Option Query)
  | specificationRule (specification : Specification)

/-- `AuthorizationRuleQuery.executeQuery` (lines 204–211): the tail runs
against storage; `path[path.length-1]` of an empty path is `undefined`. -/
def queryTailResults (storeQuery : FactReference → Query → List (List FactReference))
    (tail : Option Query) (predecessors : List FactReference) :
    List (Option FactReference) :=
  predecessors.flatMap (fun p =>
    match tail with
    | none => [some p]
    | some t => (storeQuery p t).map (fun path => path.getLast?))

/-- `isAuthorized` of a single rule (each rule class's method).  `Any`
always authorizes; `None` never does; a query rule walks its head over
the evidence and its tail over storage and tests membership of the user's
reference; a specification rule validates its shape, rejects
successor-seeking rules with `Not implemented.`, and otherwise executes
against the evidence. -/
def ruleIsAuthorized (storeQuery : FactReference → Query → List (List FactReference))
    (userFact : Option FactReference) (fact : FactRecord)
    (factRecords : List FactRecord) : AuthorizationRule → Except String Bool
  | .anyRule => .ok true
  | .noneRule => .ok false
  | .queryRule head tail =>
    match userFact with
    | none => .ok false
    | some user =>
      match evidenceQuery factRecords ⟨fact.type, fact.hash⟩ head with
      | .error msg => .error msg
      | .ok predecessors =>
        .ok ((queryTailResults storeQuery tail predecessors).any
          (fun o => o = some user))
  | .specificationRule spec =>
    match userFact with
    | none => .ok false
    | some user =>
      match spec.given with
      | [g] =>
        match spec.projection with
        | .fact label =>
          if seeksSuccessorsMatches spec.matchList then
            .error "Not implemented."
          else
            match executeSpecification factRecords g.name spec.matchList label fact with
            | .error msg => .error msg
            | .ok results => .ok (results.any (fun o => o = some user))
        | .other => .error "The projection must be a singular label."
      | _ => .error "The specification must be given a single fact."

/-- `AuthorizationRules` (lines 261–333): rules per fact type; `withRule`
overrides the type's entry with the extended list (spread modelled by
shadowing prepend). -/
structure AuthorizationRules where
  rulesByType : List (String × List AuthorizationRule)

def AuthorizationRules.withRule (r : AuthorizationRules) (type : String)
    (rule : AuthorizationRule) : AuthorizationRules :=
  ⟨(type, ((alookup r.rulesByType type).getD []) ++ [rule]) :: r.rulesByType⟩

def AuthorizationRules.no (r : AuthorizationRules) (type : String) : AuthorizationRules :=
  r.withRule type .noneRule

def AuthorizationRules.anyType (r : AuthorizationRules) (type : String) : AuthorizationRules :=
  r.withRule type .anyRule

/-- `AuthorizationRules.newType` (lines 305–307): registration of a
specification rule, with no successor check at configuration time. -/
def AuthorizationRules.newType (r : AuthorizationRules) (type : String)
    (specification : Specification) : AuthorizationRules :=
  r.withRule type (.specificationRule specification)

/-- `AuthorizationRules.oldType` (lines 287–303): registration of a
legacy query rule, splitting the steps into an evidence head and a
storage tail at the first non-head step. -/
def AuthorizationRules.oldType (r : AuthorizationRules) (type : String)
    (steps : List Step) : Except String AuthorizationRules :=
  match steps with
  | [] => .error ("Invalid authorization rule for type " ++ type ++
      ": the query matches the fact itself.")
  | first :: _ =>
    match first with
    | .join direction _ =>
      if direction = .predecessor then
        match steps.findIdx? (fun step => ¬ headStep step) with
        | none => .ok (r.withRule type (.queryRule ⟨steps⟩ none))
        | some index =>
          .ok (r.withRule type
            (.queryRule ⟨steps.take index⟩ (some ⟨steps.drop index⟩)))
      else
        .error ("Invalid authorization rule for type " ++ type ++
          ": the query expects successors.")
    | _ =>
      .error ("Invalid authorization rule for type " ++ type ++
        ": the query does not begin with a predecessor.")

def AuthorizationRules.hasRule (r : AuthorizationRules) (type : String) : Bool :=
  (alookup r.rulesByType type).isSome

/-- The `mapAsync` over the type's rules (line 329). -/
def evalRules (storeQuery : FactReference → Query → List (List FactReference))
    (userFact : Option FactReference) (fact : FactRecord)
    (factRecords : List FactRecord) : List AuthorizationRule → Except String (List Bool)
  | [] => .ok []
  | r :: rest =>
    match ruleIsAuthorized storeQuery userFact fact factRecords r with
    | .error msg => .error msg
    | .ok b =>
      match evalRules storeQuery userFact fact factRecords rest with
      | .error msg => .error msg
      | .ok bs => .ok (b :: bs)

/-- `AuthorizationRules.isAuthorized` (lines 322–332): no rules for the
fact's type means not authorized; otherwise evaluate every rule and
accept when some rule accepts. -/
def AuthorizationRules.isAuthorized (r : AuthorizationRules)
    (storeQuery : FactReference → Query → List (List FactReference))
    (userFact : Option FactReference) (fact : FactRecord)
    (factRecords : List FactRecord) : Except String Bool :=
  match alookup r.rulesByType fact.type with
  | none => .ok false
  | some rules =>
    match evalRules storeQuery userFact fact factRecords rules with
    | .error msg => .error msg
    | .ok results => .ok (results.any (fun b => b))

theorem evalRules_ok_iff (storeQuery : FactReference → Query → List (List FactReference))
    (userFact : Option FactReference) (fact : FactRecord)
    (factRecords : List FactRecord) (rules : List AuthorizationRule)
    (h : ∀ rule ∈ rules, ∃ b, ruleIsAuthorized storeQuery userFact fact factRecords rule = .ok b) :
    ∃ bs, evalRules storeQuery userFact fact factRecords rules = .ok bs ∧
      ((∃ b ∈ bs, b = true) ↔
        ∃ rule ∈ rules, ruleIsAuthorized storeQuery userFact fact factRecords rule = .ok true) := by
  induction rules with
  | nil => exact ⟨[], rfl, by simp⟩
  | cons r rest ih =>
    obtain ⟨b, hb⟩ := h r (List.mem_cons_self r rest)
    obtain ⟨bs, hbs, hiff⟩ := ih (fun x hx => h x (List.mem_cons_of_mem _ hx))
    refine ⟨b :: bs, by simp [evalRules, hb, hbs], ?_⟩
    constructor
    · rintro ⟨x, hx, hxt⟩
      rcases List.mem_cons.mp hx with h1 | h1
      · subst h1
        exact ⟨r, List.mem_cons_self r rest, hxt ▸ hb⟩
      · obtain ⟨rule, hr1, hr2⟩ := hiff.mp ⟨x, h1, hxt⟩
        exact ⟨rule, List.mem_cons_of_mem _ hr1, hr2⟩
    · rintro ⟨rule, hr1, hr2⟩
      rcases List.mem_cons.mp hr1 with h1 | h1
      · subst h1
        rw [hb] at hr2
        have : b = true := by injection hr2
        exact ⟨b, List.mem_cons_self b bs, this⟩
      · obtain ⟨x, hx1, hx2⟩ := hiff.mpr ⟨rule, h1, hr2⟩
        exact ⟨x, List.mem_cons_of_mem _ hx1, hx2⟩

/-- C1: `AuthorizationRules.isAuthorized` returns true if and only if at
least one rule registered for the fact's type returns authorized (given
that every registered rule for the type evaluates without throwing), and
when no rule is registered for the fact's type it returns false — the
non-permissive default. -/
theorem authorizationRules_isAuthorized_characterization
    (r : AuthorizationRules) (storeQuery : FactReference → Query → List (List FactReference))
    (userFact : Option FactReference) (fact : FactRecord) (factRecords : List FactRecord) :
    (alookup r.rulesByType fact.type = none →
      r.isAuthorized storeQuery userFact fact factRecords = .ok false) ∧
    (∀ rules, alookup r.rulesByType fact.type = some rules →
      (∀ rule ∈ rules, ∃ b,
        ruleIsAuthorized storeQuery userFact fact factRecords rule = .ok b) →
      (r.isAuthorized storeQuery userFact fact factRecords = .ok true ↔
        ∃ rule ∈ rules,
          ruleIsAuthorized storeQuery userFact fact factRecords rule = .ok true)) := by
  constructor
  · intro h
    simp [AuthorizationRules.isAuthorized, h]
  · intro rules hrules hok
    obtain ⟨bs, hbs, hiff⟩ := evalRules_ok_iff storeQuery userFact fact factRecords rules hok
    unfold AuthorizationRules.isAuthorized
    simp only [hrules, hbs]
    simp only [Except.ok.injEq]
    rw [← hiff]
    simp [List.any_eq_true]

/-- Witness for C1: a single `Any` rule registered for `Task` authorizes
a `Task` fact, and a type with no registered rule is denied. -/
theorem authorizationRules_isAuthorized_witness :
    (AuthorizationRules.isAuthorized ⟨[("Task", [AuthorizationRule.anyRule])]⟩
      (fun _ _ => []) (some ⟨"Jinaga.User", "hU"⟩) ⟨"Task", "hT", [], []⟩ [] = .ok true ↔
      ∃ rule ∈ [AuthorizationRule.anyRule],
        ruleIsAuthorized (fun _ _ => []) (some ⟨"Jinaga.User", "hU"⟩)
          ⟨"Task", "hT", [], []⟩ [] rule = .ok true) ∧
    AuthorizationRules.isAuthorized ⟨[("Task", [AuthorizationRule.anyRule])]⟩
      (fun _ _ => []) (some ⟨"Jinaga.User", "hU"⟩) ⟨"List", "hL", [], []⟩ [] = .ok false := by
  constructor
  · exact (authorizationRules_isAuthorized_characterization
      ⟨[("Task", [AuthorizationRule.anyRule])]⟩ (fun _ _ => [])
      (some ⟨"Jinaga.User", "hU"⟩) ⟨"Task", "hT", [], []⟩ []).2
      [AuthorizationRule.anyRule] (by rfl)
      (by
        intro rule hr
        rw [List.mem_singleton] at hr
        subst hr
        exact ⟨true, rfl⟩)
  · exact (authorizationRules_isAuthorized_characterization
      ⟨[("Task", [AuthorizationRule.anyRule])]⟩ (fun _ _ => [])
      (some ⟨"Jinaga.User", "hU"⟩) ⟨"List", "hL", [], []⟩ []).1 (by rfl)

/-- C2 counterexample: a specification rule whose match seeks successors
(non-empty `rolesLeft`) is accepted by `AuthorizationRules.type` at
configuration time — the rules object afterwards has a rule for the type
and no exception is possible — and the `Not implemented.` rejection only
happens when a fact is evaluated against the rule. -/
theorem authorizationRules_type_accepts_successor_rule :
    (AuthorizationRules.newType ⟨[]⟩ "Task"
      ⟨[⟨"self", "Task"⟩],
        [Match.mk ⟨"s", "S"⟩ [Condition.path [] "self" [⟨"task", "Task"⟩]]],
        .fact "s"⟩).hasRule "Task" = true ∧
    ruleIsAuthorized (fun _ _ => []) (some ⟨"Jinaga.User", "hU"⟩)
      ⟨"Task", "hT", [], []⟩ []
      (.specificationRule ⟨[⟨"self", "Task"⟩],
        [Match.mk ⟨"s", "S"⟩ [Condition.path [] "self" [⟨"task", "Task"⟩]]],
        .fact "s"⟩) = .error "Not implemented." := by
  constructor <;> rfl

/-- C2 amended: registration via `AuthorizationRules.type` performs no
successor check — it always succeeds and installs the rule — and a
successor-seeking specification rule is rejected only at evaluation time,
when `isAuthorized` throws `Not implemented.` (for a logged-in user,
after the single-given and fact-projection validations pass). -/
theorem specificationRule_successor_rejected_at_evaluation
    (r : AuthorizationRules) (type : String) (spec : Specification)
    (storeQuery : FactReference → Query → List (List FactReference))
    (user : FactReference) (fact : FactRecord) (factRecords : List FactRecord)
    (hseeks : seeksSuccessorsMatches spec.matchList = true)
    (hg : ∃ g, spec.given = [g]) (hp : ∃ label, spec.projection = .fact label) :
    (r.newType type spec).hasRule type = true ∧
    ruleIsAuthorized storeQuery (some user) fact factRecords
      (.specificationRule spec) = .error "Not implemented." := by
  constructor
  · simp [AuthorizationRules.newType, AuthorizationRules.withRule,
      AuthorizationRules.hasRule, alookup]
  · obtain ⟨g, hg⟩ := hg
    obtain ⟨label, hp⟩ := hp
    simp [ruleIsAuthorized, hg, hp, hseeks]

/-- Witness for C2 (amended) at the concrete successor-seeking rule. -/
theorem specificationRule_successor_rejected_witness :
    (AuthorizationRules.newType ⟨[]⟩ "Task"
      ⟨[⟨"self", "Task"⟩],
        [Match.mk ⟨"s", "S"⟩ [Condition.path [] "self" [⟨"task", "Task"⟩]]],
        .fact "s"⟩).hasRule "Task" = true ∧
    ruleIsAuthorized (fun _ _ => []) (some ⟨"Jinaga.User", "hU2"⟩)
      ⟨"Task", "hT2", [], []⟩ []
      (.specificationRule ⟨[⟨"self", "Task"⟩],
        [Match.mk ⟨"s", "S"⟩ [Condition.path [] "self" [⟨"task", "Task"⟩]]],
        .fact "s"⟩) = .error "Not implemented." :=
  specificationRule_successor_rejected_at_evaluation ⟨[]⟩ "Task"
    ⟨[⟨"self", "Task"⟩],
      [Match.mk ⟨"s", "S"⟩ [Condition.path [] "self" [⟨"task", "Task"⟩]]],
      .fact "s"⟩
    (fun _ _ => []) ⟨"Jinaga.User", "hU2"⟩ ⟨"Task", "hT2", [], []⟩ []
    (by rfl) ⟨⟨"self", "Task"⟩, rfl⟩ ⟨"s", rfl⟩

theorem evidenceStep_headStep_ok (factRecords : List FactRecord)
    (facts : List FactReference) (s : Step) (hs : headStep s = true) :
    ∃ out, evidenceStep factRecords facts s = .ok out := by
  cases s with
  | propertyCondition name value =>
    simp only [headStep, decide_eq_true_eq] at hs
    subst hs
    exact ⟨facts.filter (fun fact => fact.type = value), by simp [evidenceStep]⟩
  | join direction role =>
    simp only [headStep, decide_eq_true_eq] at hs
    subst hs
    exact ⟨facts.flatMap (fun fact => getPredecessors (findFact factRecords fact) role),
      by simp [evidenceStep]⟩
  | existentialCondition q ss => simp [headStep] at hs

/-- A query of head steps never throws against evidence. -/
theorem evidenceSteps_headSteps_ok (factRecords : List FactRecord)
    (facts : List FactReference) (steps : List Step)
    (h : ∀ s ∈ steps, headStep s = true) :
    ∃ out, evidenceSteps factRecords facts steps = .ok out := by
  induction steps generalizing facts with
  | nil => exact ⟨facts, rfl⟩
  | cons s rest ih =>
    obtain ⟨out1, hout1⟩ := evidenceStep_headStep_ok factRecords facts s
      (h s (List.mem_cons_self s rest))
    obtain ⟨out2, hout2⟩ := ih out1 (fun x hx => h x (List.mem_cons_of_mem _ hx))
    exact ⟨out2, by simp [evidenceSteps, hout1, hout2]⟩

/-- Head steps starting from the empty set stay empty. -/
theorem evidenceSteps_nil_headSteps (factRecords : List FactRecord)
    (steps : List Step) (h : ∀ s ∈ steps, headStep s = true) :
    evidenceSteps factRecords [] steps = .ok [] := by
  induction steps with
  | nil => rfl
  | cons s rest ih =>
    have hhead := h s (List.mem_cons_self s rest)
    have hstep : evidenceStep factRecords [] s = .ok [] := by
      cases s with
      | propertyCondition name value =>
        simp only [headStep, decide_eq_true_eq] at hhead
        simp [evidenceStep, hhead]
      | join direction role =>
        simp only [headStep, decide_eq_true_eq] at hhead
        simp [evidenceStep, hhead]
      | existentialCondition q ss => simp [headStep] at hhead
    simp only [evidenceSteps, hstep]
    exact ih (fun x hx => h x (List.mem_cons_of_mem _ hx))

/-- C3 counterexample: a specification rule whose predecessor walk
reaches `List:hA`, which has no record in the submitted evidence, throws
`The fact List:hA is not defined.` instead of evaluating to
not-authorized. -/
theorem specRule_missing_evidence_throws :
    ruleIsAuthorized (fun _ _ => []) (some ⟨"Jinaga.User", "hU"⟩)
      ⟨"Task", "hT", [], [("list", .single ⟨"List", "hA"⟩)]⟩
      [⟨"Task", "hT", [], [("list", .single ⟨"List", "hA"⟩)]⟩]
      (.specificationRule ⟨[⟨"self", "Task"⟩],
        [Match.mk ⟨"u", "Jinaga.User"⟩
          [Condition.path [⟨"list", "List"⟩, ⟨"owner", "Jinaga.User"⟩] "self" []]],
        .fact "u"⟩) = .error "The fact List:hA is not defined." := by
  simp [ruleIsAuthorized, executeSpecification, executeMatchesFrom, executeMatchTuples,
    executeMatch, executePathCondition, predecessorWalk, executePredecessorStep, findFact,
    getPredecessors, alookup, factReferenceEquals, seeksSuccessors, seeksSuccessorsConds,
    seeksSuccessorsMatches, predValueList, filterByConditions]

/-- C3 amended: a legacy query rule whose predecessor-direction walk
starts at a fact with no record in the evidence fails closed — it
evaluates to not-authorized without raising — (and a head of executable
steps never throws at all); a specification rule, by contrast, throws
`The fact type:hash is not defined.` as soon as its predecessor walk
reaches a reference with no record in the evidence. -/
theorem evidence_missing_fact_behavior
    (storeQuery : FactReference → Query → List (List FactReference))
    (user : FactReference) (fact : FactRecord) (factRecords : List FactRecord)
    (role : String) (rest : List Step) (tail : Option Query)
    (hrest : ∀ s ∈ rest, headStep s = true)
    (hmissing : findFact factRecords ⟨fact.type, fact.hash⟩ = none)
    (reference : FactReference) (set : List FactReference)
    (name predecessorType : String)
    (hmiss2 : findFact factRecords reference = none) :
    ruleIsAuthorized storeQuery (some user) fact factRecords
      (.queryRule ⟨.join .predecessor role :: rest⟩ tail) = .ok false ∧
    executePredecessorStep factRecords (reference :: set) name predecessorType =
      .error ("The fact " ++ reference.type ++ ":" ++ reference.hash ++
        " is not defined.") := by
  constructor
  · have hfirst : evidenceStep factRecords [⟨fact.type, fact.hash⟩]
        (.join .predecessor role) = .ok [] := by
      simp [evidenceStep, hmissing, getPredecessors]
    have hq : evidenceQuery factRecords ⟨fact.type, fact.hash⟩
        ⟨.join .predecessor role :: rest⟩ = .ok [] := by
      unfold evidenceQuery
      simp only [evidenceSteps, hfirst]
      exact evidenceSteps_nil_headSteps factRecords rest hrest
    simp [ruleIsAuthorized, hq, queryTailResults]
  · simp [executePredecessorStep, hmiss2]

/-- Witness for C3 (amended) at a concrete rule and evidence set. -/
theorem evidence_missing_fact_behavior_witness :
    ruleIsAuthorized (fun _ _ => []) (some ⟨"Jinaga.User", "hU"⟩)
      ⟨"Task", "hT", [], [("list", .single ⟨"List", "hA"⟩)]⟩ []
      (.queryRule ⟨[.join .predecessor "list",
        .propertyCondition "type" "List"]⟩ none) = .ok false ∧
    executePredecessorStep [] [⟨"List", "hA"⟩] "owner" "Jinaga.User" =
      .error ("The fact " ++ "List" ++ ":" ++ "hA" ++ " is not defined.") :=
  evidence_missing_fact_behavior (fun _ _ => []) ⟨"Jinaga.User", "hU"⟩
    ⟨"Task", "hT", [], [("list", .single ⟨"List", "hA"⟩)]⟩ []
    "list" [.propertyCondition "type" "List"] none
    (by intro s hs; rw [List.mem_singleton] at hs; subst hs; rfl)
    (by rfl) ⟨"List", "hA"⟩ [] "owner" "Jinaga.User" (by rfl)

/-! ## Descriptive query strings (src/interface.ts, lines 28–144)

The parser is index-based over the characters of the string, as in the
source; thrown `Error`s are `none`.  Loops advance the index by at least
one character per iteration, so a fuel of the remaining length realizes
them by structural recursion. -/

/-- `done` (line 60). -/
def doneAt (descriptive : List Char) (index : Nat) : Bool :=
  index = descriptive.length

/-- `lookahead` (line 64): throws past the end. -/
def lookahead (descriptive : List Char) (index : Nat) : Option Char :=
  if h : index < descriptive.length then some (descriptive.get ⟨index, h⟩) else none

/-- `consume` (line 71). -/
def consume (descriptive : List Char) (index : Nat) (expected : Char) : Option Nat :=
  match lookahead descriptive index with
  | none => none
  | some c => if c = expected then some (index + 1) else none

/-- The `identifier` loop (line 78): collect characters until the end, a
space, or an equals sign. -/
def identifierAux : Nat → List Char → Nat → List Char × Nat
  | 0, _, index => ([], index)
  | fuel + 1, d, index =>
    if h : index < d.length then
      let next := d.get ⟨index, h⟩
      if next = ' ' ∨ next = '=' then ([], index)
      else
        let r := identifierAux fuel d (index + 1)
        (next :: r.1, r.2)
    else ([], index)

def identifier (descriptive : List Char) (index : Nat) : List Char × Nat :=
  identifierAux (descriptive.length - index) descriptive index

/-- The `quotedValue` loop (line 92): collect characters until the
closing quote, throwing at the end of input. -/
def quotedValueLoop : Nat → List Char → Nat → Option (List Char × Nat)
  | 0, _, _ => none
  | fuel + 1, d, index =>
    match lookahead d index with
    | none => none
    | some c =>
      if c = '"' then some ([], index + 1)
      else
        match quotedValueLoop fuel d (index + 1) with
        | none => none
        | some (v, i2) => some (c :: v, i2)

def quotedValue (descriptive : List Char) (index : Nat) : Option (List Char × Nat) :=
  match consume descriptive index '"' with
  | none => none
  | some i1 => quotedValueLoop (descriptive.length - i1) descriptive i1

/-- `Step.toDeclarativeString` (lines 16–47): `ExistentialCondition` does
not override the base method, which throws `Abstract`. -/
def toDeclarativeString : Step → Option (List Char)
  | .propertyCondition name value =>
    some (('F' :: '.' :: name.data) ++ ('=' :: '"' :: value.data) ++ ['"'])
  | .join direction role =>
    some ((if direction = .predecessor then ['P', '.'] else ['S', '.']) ++ role.data)
  | .existentialCondition _ _ => none

def mapDeclarative : List Step → Option (List (List Char))
  | [] => some []
  | s :: rest =>
    match toDeclarativeString s with
    | none => none
    | some part =>
      match mapDeclarative rest with
      | none => none
      | some parts => some (part :: parts)

/-- `join(" ")` of the parts. -/
def joinSpace : List (List Char) → List Char
  | [] => []
  | [x] => x
  | x :: xs => x ++ ' ' :: joinSpace xs

/-- `Query.toDescriptiveString` (lines 55–57). -/
def Query.toDescriptiveString (q : Query) : Option String :=
  match mapDeclarative q.steps with
  | none => none
  | some parts => some (String.mk (joinSpace parts))

/-- The `while (true)` step loop of `fromDescriptiveString`
(lines 110–143). -/
def parseSteps : Nat → List Char → Nat → Option (List Step)
  | 0, _, _ => none
  | fuel + 1, d, index =>
    match lookahead d index with
    | none => none
    | some next =>
      if next = 'P' then
        match consume d index 'P' with
        | none => none
        | some i1 =>
          match consume d i1 '.' with
          | none => none
          | some i2 =>
            let r := identifier d i2
            let step := Step.join .predecessor (String.mk r.1)
            if doneAt d r.2 then some [step]
            else
              match consume d r.2 ' ' with
              | none => none
              | some i3 =>
                match parseSteps fuel d i3 with
                | none => none
                | some rest => some (step :: rest)
      else if next = 'S' then
        match consume d index 'S' with
        | none => none
        | some i1 =>
          match consume d i1 '.' with
          | none => none
          | some i2 =>
            let r := identifier d i2
            let step := Step.join .successor (String.mk r.1)
            if doneAt d r.2 then some [step]
            else
              match consume d r.2 ' ' with
              | none => none
              | some i3 =>
                match parseSteps fuel d i3 with
                | none => none
                | some rest => some (step :: rest)
      else if next = 'F' then
        match consume d index 'F' with
        | none => none
        | some i1 =>
          match consume d i1 '.' with
          | none => none
          | some i2 =>
            let r := identifier d i2
            match consume d r.2 '=' with
            | none => none
            | some i3 =>
              match quotedValue d i3 with
              | none => none
              | some (value, i4) =>
                let step := Step.propertyCondition (String.mk r.1) (String.mk value)
                if doneAt d i4 then some [step]
                else
                  match consume d i4 ' ' with
                  | none => none
                  | some i5 =>
                    match parseSteps fuel d i5 with
                    | none => none
                    | some rest => some (step :: rest)
      else none

/-- `fromDescriptiveString` (lines 104–144). -/
def fromDescriptiveString (descriptive : String) (index : Nat) : Option Query :=
  if doneAt descriptive.data index then some ⟨[]⟩
  else
    match parseSteps (descriptive.data.length + 1) descriptive.data index with
    | none => none
    | some steps => some ⟨steps⟩

theorem drop_cons_facts {d : List Char} {i : Nat} {c : Char} {l : List Char}
    (h : d.drop i = c :: l) :
    ∃ hlt : i < d.length, d[i] = c ∧ d.drop (i + 1) = l := by
  have hlt : i < d.length := by
    by_contra hge
    rw [List.drop_eq_nil_of_le (Nat.le_of_not_lt hge)] at h
    cases h
  rw [List.drop_eq_getElem_cons hlt] at h
  injection h with h1 h2
  exact ⟨hlt, h1, h2⟩

theorem get_of_drop {d : List Char} {i : Nat} {c : Char} {l : List Char}
    (h : d.drop i = c :: l) (hlt : i < d.length) : d[i] = c := by
  obtain ⟨_, h1, _⟩ := drop_cons_facts h
  exact h1

theorem lookahead_of_drop {d : List Char} {i : Nat} {c : Char} {l : List Char}
    (h : d.drop i = c :: l) : lookahead d i = some c := by
  obtain ⟨hlt, hget, _⟩ := drop_cons_facts h
  simp [lookahead, hlt, hget]

theorem consume_of_drop {d : List Char} {i : Nat} {c : Char} {l : List Char}
    (h : d.drop i = c :: l) : consume d i c = some (i + 1) := by
  simp [consume, lookahead_of_drop h]

theorem lookahead_none_of_drop_nil {d : List Char} {i : Nat}
    (h : d.drop i = []) : lookahead d i = none := by
  have : d.length ≤ i := by
    by_contra hlt
    rw [List.drop_eq_getElem_cons (Nat.lt_of_not_le hlt)] at h
    cases h
  simp [lookahead, Nat.not_lt.mpr this]

theorem identifierAux_spec (id : List Char) (hid : ∀ c ∈ id, ¬(c = ' ' ∨ c = '='))
    (d : List Char) (index : Nat) (rest : List Char)
    (hd : d.drop index = id ++ rest)
    (hstop : rest = [] ∨ ∃ c rest2, rest = c :: rest2 ∧ (c = ' ' ∨ c = '='))
    (fuel : Nat) (hfuel : id.length ≤ fuel) :
    identifierAux fuel d index = (id, index + id.length) := by
  induction id generalizing index fuel with
  | nil =>
    simp only [List.nil_append] at hd
    cases fuel with
    | zero => simp [identifierAux]
    | succ f =>
      rcases hstop with h1 | ⟨c, rest2, h1, h2⟩
      · subst h1
        have hge : d.length ≤ index := by
          by_contra hlt
          rw [List.drop_eq_getElem_cons (Nat.lt_of_not_le hlt)] at hd
          cases hd
        simp [identifierAux, Nat.not_lt.mpr hge]
      · subst h1
        obtain ⟨hlt, hget, _⟩ := drop_cons_facts hd
        rcases h2 with h2 | h2 <;> simp [identifierAux, hlt, hget, h2]
  | cons ch id2 ih =>
    have hch := hid ch (List.mem_cons_self ch id2)
    rw [List.cons_append] at hd
    obtain ⟨hlt, hget, hdrop1⟩ := drop_cons_facts hd
    cases fuel with
    | zero => simp at hfuel
    | succ f =>
      have hrec := ih (fun c hc => hid c (List.mem_cons_of_mem _ hc))
        (index + 1) hdrop1 f (by simpa using hfuel)
      simp only [identifierAux, dif_pos hlt, List.get_eq_getElem, hget, if_neg hch, hrec]
      simp only [List.length_cons, Prod.mk.injEq, true_and]
      omega

theorem identifier_spec (id : List Char) (hid : ∀ c ∈ id, ¬(c = ' ' ∨ c = '='))
    (d : List Char) (index : Nat) (rest : List Char)
    (hd : d.drop index = id ++ rest)
    (hstop : rest = [] ∨ ∃ c rest2, rest = c :: rest2 ∧ (c = ' ' ∨ c = '=')) :
    identifier d index = (id, index + id.length) := by
  refine identifierAux_spec id hid d index rest hd hstop _ ?_
  have hlen := congrArg List.length hd
  rw [List.length_drop, List.length_append] at hlen
  omega

theorem quotedValueLoop_spec (value : List Char) (hv : ∀ c ∈ value, ¬ c = '"')
    (d : List Char) (index : Nat) (rest : List Char)
    (hd : d.drop index = value ++ '"' :: rest)
    (fuel : Nat) (hfuel : value.length + 1 ≤ fuel) :
    quotedValueLoop fuel d index = some (value, index + value.length + 1) := by
  induction value generalizing index fuel with
  | nil =>
    simp only [List.nil_append] at hd
    cases fuel with
    | zero => simp at hfuel
    | succ f =>
      simp [quotedValueLoop, lookahead_of_drop hd]
  | cons ch v2 ih =>
    have hch := hv ch (List.mem_cons_self ch v2)
    rw [List.cons_append] at hd
    obtain ⟨hlt, hget, hdrop1⟩ := drop_cons_facts hd
    cases fuel with
    | zero => simp at hfuel
    | succ f =>
      have hrec := ih (fun c hc => hv c (List.mem_cons_of_mem _ hc))
        (index + 1) hdrop1 f (by simpa using hfuel)
      simp only [quotedValueLoop, lookahead_of_drop hd, if_neg hch, hrec]
      simp only [List.length_cons, Option.some.injEq, Prod.mk.injEq, true_and]
      omega

theorem quotedValue_spec (value : List Char) (hv : ∀ c ∈ value, ¬ c = '"')
    (d : List Char) (index : Nat) (rest : List Char)
    (hd : d.drop index = '"' :: (value ++ '"' :: rest)) :
    quotedValue d index = some (value, index + 1 + value.length + 1) := by
  obtain ⟨hlt, hget, hdrop1⟩ := drop_cons_facts hd
  unfold quotedValue
  rw [consume_of_drop hd]
  refine quotedValueLoop_spec value hv d (index + 1) rest hdrop1 _ ?_
  have hlen := congrArg List.length hdrop1
  rw [List.length_drop, List.length_append] at hlen
  simp at hlen
  omega

/-- The constraints of C10 on a step: role and property names non-empty
without space, equals or quote characters; property values without
quotes; no existential conditions (their printer throws `Abstract`). -/
def goodStep : Step → Prop
  | .join _ role => role.data ≠ [] ∧ ∀ c ∈ role.data, c ≠ ' ' ∧ c ≠ '=' ∧ c ≠ '"'
  | .propertyCondition name value =>
    name.data ≠ [] ∧ (∀ c ∈ name.data, c ≠ ' ' ∧ c ≠ '=' ∧ c ≠ '"') ∧
    ∀ c ∈ value.data, c ≠ '"'
  | .existentialCondition _ _ => False

/-- The characters a good step prints. -/
def stepChars : Step → List Char
  | .join direction role =>
    (if direction = .predecessor then ['P', '.'] else ['S', '.']) ++ role.data
  | .propertyCondition name value =>
    ('F' :: '.' :: name.data) ++ ('=' :: '"' :: value.data) ++ ['"']
  | .existentialCondition _ _ => []

theorem toDeclarativeString_good (s : Step) (h : goodStep s) :
    toDeclarativeString s = some (stepChars s) := by
  cases s with
  | join dir role => rfl
  | propertyCondition n v => rfl
  | existentialCondition q ss => exact absurd h (by simp [goodStep])

theorem mapDeclarative_good (steps : List Step) (h : ∀ s ∈ steps, goodStep s) :
    mapDeclarative steps = some (steps.map stepChars) := by
  induction steps with
  | nil => rfl
  | cons s rest ih =>
    simp only [mapDeclarative, toDeclarativeString_good s (h s (List.mem_cons_self s rest)),
      ih (fun x hx => h x (List.mem_cons_of_mem _ hx)), List.map_cons]

theorem stepChars_ne_nil (s : Step) (h : goodStep s) : stepChars s ≠ [] := by
  cases s with
  | join dir role => cases dir <;> simp [stepChars]
  | propertyCondition n v => simp [stepChars]
  | existentialCondition q ss => exact absurd h (by simp [goodStep])

theorem drop_append_of_drop {d A B : List Char} {index : Nat}
    (h : d.drop index = A ++ B) : d.drop (index + A.length) = B := by
  rw [← List.drop_drop, h, List.drop_left]

theorem joinSpace_length (parts : List (List Char)) :
    parts.length ≤ (joinSpace parts).length + 1 := by
  induction parts with
  | nil => simp
  | cons x xs ih =>
    cases xs with
    | nil => simp [joinSpace]
    | cons y ys =>
      simp only [joinSpace, List.length_append, List.length_cons] at ih ⊢
      omega

theorem parseSteps_head (s : Step) (hs : goodStep s) (d : List Char)
    (index fuel : Nat) (tail : List Char)
    (hd : d.drop index = stepChars s ++ tail)
    (htail : tail = [] ∨ ∃ t2, tail = ' ' :: t2) :
    parseSteps (fuel + 1) d index =
      if doneAt d (index + (stepChars s).length) then some [s]
      else
        match consume d (index + (stepChars s).length) ' ' with
        | none => none
        | some i3 =>
          match parseSteps fuel d i3 with
          | none => none
          | some rest => some (s :: rest) := by
  have hstop : tail = [] ∨ ∃ c rest2, tail = c :: rest2 ∧ (c = ' ' ∨ c = '=') := by
    rcases htail with h | ⟨t2, h⟩
    · exact Or.inl h
    · exact Or.inr ⟨' ', t2, h, Or.inl rfl⟩
  cases s with
  | join dir role =>
    obtain ⟨hne, hchars⟩ := hs
    have hid : ∀ c ∈ role.data, ¬(c = ' ' ∨ c = '=') := by
      intro c hc
      have := hchars c hc
      tauto
    have hstr : String.mk role.data = role := rfl
    cases dir with
    | predecessor =>
      have hd1 : d.drop index = 'P' :: ('.' :: (role.data ++ tail)) := by
        simpa [stepChars] using hd
      obtain ⟨hlt1, _, hdrop1⟩ := drop_cons_facts hd1
      obtain ⟨hlt2, _, hdrop2⟩ := drop_cons_facts hdrop1
      have hident := identifier_spec role.data hid d (index + 1 + 1) tail hdrop2 hstop
      have harith : index + 1 + 1 + role.data.length =
          index + (stepChars (Step.join .predecessor role)).length := by
        simp [stepChars]
        omega
      simp only [parseSteps, lookahead_of_drop hd1, eq_self_iff_true, if_true,
        consume_of_drop hd1, consume_of_drop hdrop1, hident, hstr, harith]
    | successor =>
      have hd1 : d.drop index = 'S' :: ('.' :: (role.data ++ tail)) := by
        simpa [stepChars] using hd
      obtain ⟨hlt1, _, hdrop1⟩ := drop_cons_facts hd1
      obtain ⟨hlt2, _, hdrop2⟩ := drop_cons_facts hdrop1
      have hident := identifier_spec role.data hid d (index + 1 + 1) tail hdrop2 hstop
      have harith : index + 1 + 1 + role.data.length =
          index + (stepChars (Step.join .successor role)).length := by
        simp [stepChars]
        omega
      have hSP : ('S' : Char) = 'P' ↔ False := by simp
      simp only [parseSteps, lookahead_of_drop hd1, hSP, if_false, eq_self_iff_true,
        if_true, consume_of_drop hd1, consume_of_drop hdrop1, hident, hstr, harith]
  | propertyCondition name value =>
    obtain ⟨hne, hnchars, hvchars⟩ := hs
    have hid : ∀ c ∈ name.data, ¬(c = ' ' ∨ c = '=') := by
      intro c hc
      have := hnchars c hc
      tauto
    have hstrn : String.mk name.data = name := rfl
    have hstrv : String.mk value.data = value := rfl
    have hd1 : d.drop index =
        'F' :: ('.' :: (name.data ++ ('=' :: ('"' :: (value.data ++ '"' :: tail))))) := by
      simpa [stepChars] using hd
    obtain ⟨hlt1, _, hdrop1⟩ := drop_cons_facts hd1
    obtain ⟨hlt2, _, hdrop2⟩ := drop_cons_facts hdrop1
    have hident := identifier_spec name.data hid d (index + 1 + 1)
      ('=' :: ('"' :: (value.data ++ '"' :: tail))) hdrop2
      (Or.inr ⟨'=', _, rfl, Or.inr rfl⟩)
    have hdrop3 : d.drop (index + 1 + 1 + name.data.length) =
        '=' :: ('"' :: (value.data ++ '"' :: tail)) := by
      have := drop_append_of_drop hdrop2
      simpa using this
    obtain ⟨hlt3, _, hdrop4⟩ := drop_cons_facts hdrop3
    have hv : ∀ c ∈ value.data, ¬ c = '"' := hvchars
    have hquote := quotedValue_spec value.data hv d (index + 1 + 1 + name.data.length + 1)
      tail hdrop4
    have hFP : ('F' : Char) = 'P' ↔ False := by simp
    have hFS : ('F' : Char) = 'S' ↔ False := by simp
    have harith : index + 1 + 1 + name.data.length + 1 + 1 + value.data.length + 1 =
        index + (stepChars (Step.propertyCondition name value)).length := by
      simp [stepChars]
      omega
    simp only [parseSteps, lookahead_of_drop hd1, hFP, hFS, if_false, eq_self_iff_true,
      if_true, consume_of_drop hd1, consume_of_drop hdrop1, hident,
      consume_of_drop hdrop3, hquote, hstrn, hstrv, harith]
  | existentialCondition q ss => exact absurd hs (by simp [goodStep])

theorem parseSteps_spec (rest : List Step) (s : Step)
    (hgood : ∀ x ∈ s :: rest, goodStep x) (d : List Char) (index fuel : Nat)
    (hd : d.drop index = joinSpace ((s :: rest).map stepChars))
    (hfuel : (s :: rest).length ≤ fuel) :
    parseSteps fuel d index = some (s :: rest) := by
  induction rest generalizing s index fuel with
  | nil =>
    cases fuel with
    | zero => simp at hfuel
    | succ f =>
      have hgs := hgood s (List.mem_cons_self s [])
      have hd0 : d.drop index = stepChars s ++ [] := by
        simpa [joinSpace] using hd
      rw [parseSteps_head s hgs d index f [] hd0 (Or.inl rfl)]
      have hlen : index + (stepChars s).length = d.length := by
        have h1 := congrArg List.length hd0
        rw [List.length_drop, List.length_append] at h1
        have h2 : index < d.length := by
          by_contra hge
          rw [List.drop_eq_nil_of_le (Nat.le_of_not_lt hge)] at hd0
          exact stepChars_ne_nil s hgs (by simpa using hd0.symm)
        simp only [List.length_nil, Nat.add_zero] at h1
        omega
      simp [doneAt, hlen]
  | cons s2 rest2 ih =>
    cases fuel with
    | zero => simp at hfuel
    | succ f =>
      have hgs := hgood s (List.mem_cons_self s (s2 :: rest2))
      have hd0 : d.drop index =
          stepChars s ++ (' ' :: joinSpace ((s2 :: rest2).map stepChars)) := by
        simpa [joinSpace] using hd
      rw [parseSteps_head s hgs d index f _ hd0 (Or.inr ⟨_, rfl⟩)]
      have hdropT : d.drop (index + (stepChars s).length) =
          ' ' :: joinSpace ((s2 :: rest2).map stepChars) :=
        drop_append_of_drop hd0
      obtain ⟨hlt, _, hdropT1⟩ := drop_cons_facts hdropT
      have hdone : doneAt d (index + (stepChars s).length) = false := by
        simp only [doneAt, decide_eq_false_iff_not]
        omega
      have hrec := ih s2 (fun x hx => hgood x (List.mem_cons_of_mem _ hx))
        (index + (stepChars s).length + 1) f hdropT1 (by simpa using hfuel)
      rw [hdone]
      simp only [Bool.false_eq_true, if_false, consume_of_drop hdropT, hrec]

/-- C10: for every query whose steps are joins and property conditions
with non-empty role/property names free of space, `=` and `"` characters
and string values free of `"` characters, the descriptive string prints
and parses back to a query with an equal list of steps. -/
theorem descriptive_roundtrip (q : Query) (hgood : ∀ s ∈ q.steps, goodStep s) :
    ∃ printed, q.toDescriptiveString = some printed ∧
      fromDescriptiveString printed 0 = some q := by
  obtain ⟨steps⟩ := q
  have hmap := mapDeclarative_good steps hgood
  refine ⟨String.mk (joinSpace (steps.map stepChars)), ?_, ?_⟩
  · simp [Query.toDescriptiveString, hmap]
  · cases steps with
    | nil => rfl
    | cons s rest =>
      unfold fromDescriptiveString
      have hne : joinSpace ((s :: rest).map stepChars) ≠ [] := by
        intro h
        have hgs := hgood s (List.mem_cons_self s rest)
        cases rest with
        | nil =>
          exact stepChars_ne_nil s hgs (by simpa [joinSpace] using h)
        | cons s2 rest2 =>
          simp only [List.map_cons, joinSpace, List.append_eq_nil] at h
          exact stepChars_ne_nil s hgs h.1
      have hdone : doneAt (String.mk (joinSpace ((s :: rest).map stepChars))).data 0
          = false := by
        simp only [doneAt, decide_eq_false_iff_not]
        intro h
        exact hne (List.eq_nil_of_length_eq_zero h.symm)
      rw [hdone]
      have hfuel : (s :: rest).length ≤
          (String.mk (joinSpace ((s :: rest).map stepChars))).data.length + 1 := by
        have h1 := joinSpace_length ((s :: rest).map stepChars)
        simp only [List.length_map] at h1
        simpa using h1
      have hparse := parseSteps_spec rest s hgood
        (String.mk (joinSpace ((s :: rest).map stepChars))).data 0
        ((String.mk (joinSpace ((s :: rest).map stepChars))).data.length + 1)
        (by simp) hfuel
      simp only [Bool.false_eq_true, if_false, hparse]

/-- Witness for C10 at the concrete query printing `P.task F.type="Task"`. -/
theorem descriptive_roundtrip_witness :
    ∃ printed, Query.toDescriptiveString
      ⟨[.join .predecessor "task", .propertyCondition "type" "Task"]⟩ = some printed ∧
      fromDescriptiveString printed 0 =
        some ⟨[.join .predecessor "task", .propertyCondition "type" "Task"]⟩ :=
  descriptive_roundtrip
    ⟨[.join .predecessor "task", .propertyCondition "type" "Task"]⟩
    (by
      intro s hs
      rcases List.mem_cons.mp hs with h | h
      · subst h
        exact ⟨by decide, by decide⟩
      · rw [List.mem_singleton] at h
        subst h
        exact ⟨by decide, by decide, by decide⟩)
